import Mathlib

/-!
# Verification of the Gedit Session Keeper plugin (`src/sessionkeeper.py`)

Shallow embedding of the plugin's state machinery:

* `Rec` — a window record: a list of tab groups, each a list of file URIs
  (the values stored in `SKeeperAppActivatable.files_per_window`).
* Timestamps (`time.time()` floats) are modelled as exact rationals `ℚ`.
* Python dicts are modelled as ordered association lists (Python 3.7+ dicts
  preserve insertion order; assignment to an existing key keeps its position,
  assignment to a fresh key appends).
* Timer handles are modelled as `Option ℚ` (the scheduled delay, `none` when
  no timer is outstanding); the side effect of a timer later firing is
  modelled by calling the resolution functions explicitly with a `now`.
-/

namespace SessionKeeper

/-- A window record: list of tab groups, each an ordered list of file URIs. -/
abbrev Rec := List (List String)

/-- Python dict lookup on an ordered association list. -/
def alookup {κ α : Type} [DecidableEq κ] : List (κ × α) → κ → Option α
  | [], _ => none
  | (k', v) :: t, k => if k' = k then some v else alookup t k

/-- Python dict assignment `m[k] = v`: replace in place if the key exists,
append otherwise (insertion-order semantics of Python 3.7+ dicts). -/
def aset {κ α : Type} [DecidableEq κ] : List (κ × α) → κ → α → List (κ × α)
  | [], k, v => [(k, v)]
  | (k', v') :: t, k, v => if k' = k then (k, v) :: t else (k', v') :: aset t k v

/-- Python dict deletion `del m[k]` (no-op when the key is absent, callers
guard with `in`). -/
def aerase {κ α : Type} [DecidableEq κ] : List (κ × α) → κ → List (κ × α)
  | [], _ => []
  | (k', v') :: t, k => if k' = k then t else (k', v') :: aerase t k

theorem mem_aset {κ α : Type} [DecidableEq κ] (m : List (κ × α)) (k : κ) (v : α)
    (p : κ × α) : p ∈ aset m k v → p = (k, v) ∨ p ∈ m := by
  induction m with
  | nil =>
      intro h
      simp only [aset, List.mem_singleton] at h
      exact Or.inl h
  | cons hd t ih =>
      intro h
      obtain ⟨k', v'⟩ := hd
      simp only [aset] at h
      by_cases hk : k' = k
      · rw [if_pos hk] at h
        rcases List.mem_cons.mp h with h | h
        · exact Or.inl h
        · exact Or.inr (List.mem_cons_of_mem _ h)
      · rw [if_neg hk] at h
        rcases List.mem_cons.mp h with h | h
        · exact Or.inr (h ▸ List.mem_cons_self _ _)
        · rcases ih h with h | h
          · exact Or.inl h
          · exact Or.inr (List.mem_cons_of_mem _ h)

theorem aset_of_not_mem_keys {κ α : Type} [DecidableEq κ] (m : List (κ × α)) (k : κ) (v : α)
    (h : k ∉ m.map Prod.fst) : aset m k v = m ++ [(k, v)] := by
  induction m with
  | nil => rfl
  | cons hd t ih =>
      obtain ⟨k', v'⟩ := hd
      simp only [List.map_cons, List.mem_cons] at h
      push_neg at h
      simp only [aset]
      rw [if_neg (fun hc => h.1 hc.symm), ih h.2, List.cons_append]

theorem alookup_aset_self {κ α : Type} [DecidableEq κ] (m : List (κ × α)) (k : κ) (v : α) :
    alookup (aset m k v) k = some v := by
  induction m with
  | nil => simp [aset, alookup]
  | cons hd t ih =>
      obtain ⟨k', v'⟩ := hd
      by_cases hk : k' = k
      · simp [aset, hk, alookup]
      · simp [aset, hk, alookup, ih]

theorem alookup_aset_ne {κ α : Type} [DecidableEq κ] (m : List (κ × α)) (k k' : κ) (v : α)
    (h : k' ≠ k) : alookup (aset m k v) k' = alookup m k' := by
  induction m with
  | nil => simp [aset, alookup, Ne.symm h]
  | cons hd t ih =>
      obtain ⟨k0, v0⟩ := hd
      by_cases hk : k0 = k
      · subst hk
        simp [aset, alookup, Ne.symm h]
      · simp only [aset, if_neg hk, alookup]
        by_cases hk' : k0 = k'
        · simp [hk']
        · simp [hk', ih]

/-! ## The resolution pass

`process_pending` (per window, `sessionkeeper.py:219-250`) and the per-window
loop body of `process_global_pending` (`sessionkeeper.py:160-177`) run the
identical scan: iterate the pending timestamps in `sorted(..., reverse=True)`
order; keep every entry younger than `exit_timeout`; commit the first entry
at least `exit_timeout` old and `break` (dropping all remaining, older
entries).  `resolvePass` is that shared scan; the two callers differ only in
what they do with the committed entry. -/

/-- One step of a descending insertion sort by timestamp (models Python's
`sorted(dict_keys, reverse=True)`; dict keys are distinct so ties are
irrelevant). -/
def insertByStamp (p : ℚ × Rec) : List (ℚ × Rec) → List (ℚ × Rec)
  | [] => [p]
  | q :: t => if q.1 ≤ p.1 then p :: q :: t else q :: insertByStamp p t

/-- Sort the pending entries by timestamp, newest first. -/
def sortDesc (l : List (ℚ × Rec)) : List (ℚ × Rec) :=
  l.foldr insertByStamp []

/-- The scan over the (descending-sorted) pending entries: entries with
`now - stamp < exit_timeout` are copied to `new_pending_states`; the first
entry with `now - stamp ≥ exit_timeout` is committed and the loop breaks,
discarding everything older. Returns (surviving entries, committed entry). -/
def scanPending (timeout now : ℚ) : List (ℚ × Rec) → List (ℚ × Rec) × Option (ℚ × Rec)
  | [] => ([], none)
  | p :: rest =>
    if now - p.1 < timeout then
      (p :: (scanPending timeout now rest).1, (scanPending timeout now rest).2)
    else ([], some p)

/-- A full resolution pass over a pending queue, as performed per queue by
both `process_pending` and `process_global_pending`. -/
def resolvePass (timeout now : ℚ) (q : List (ℚ × Rec)) : List (ℚ × Rec) × Option (ℚ × Rec) :=
  scanPending timeout now (sortDesc q)

theorem mem_insertByStamp (p a : ℚ × Rec) (l : List (ℚ × Rec)) :
    a ∈ insertByStamp p l ↔ a = p ∨ a ∈ l := by
  induction l with
  | nil => simp [insertByStamp]
  | cons q t ih =>
      by_cases h : q.1 ≤ p.1
      · simp [insertByStamp, h]
      · simp only [insertByStamp, if_neg h, List.mem_cons, ih]
        tauto

theorem perm_insertByStamp (p : ℚ × Rec) (l : List (ℚ × Rec)) :
    List.Perm (insertByStamp p l) (p :: l) := by
  induction l with
  | nil => rfl
  | cons q t ih =>
      by_cases h : q.1 ≤ p.1
      · simp [insertByStamp, h]
      · simp only [insertByStamp, if_neg h]
        exact (ih.cons q).trans (List.Perm.swap p q t)

theorem perm_sortDesc (l : List (ℚ × Rec)) : List.Perm (sortDesc l) l := by
  induction l with
  | nil => rfl
  | cons p t ih => exact (perm_insertByStamp p (sortDesc t)).trans (ih.cons p)

theorem mem_sortDesc (a : ℚ × Rec) (l : List (ℚ × Rec)) : a ∈ sortDesc l ↔ a ∈ l :=
  (perm_sortDesc l).mem_iff

/-- Descending order by timestamp. -/
abbrev StampsDesc (l : List (ℚ × Rec)) : Prop :=
  l.Pairwise (fun a b => b.1 ≤ a.1)

theorem stampsDesc_insertByStamp (p : ℚ × Rec) (l : List (ℚ × Rec))
    (h : StampsDesc l) : StampsDesc (insertByStamp p l) := by
  induction l with
  | nil => simp [insertByStamp, StampsDesc]
  | cons q t ih =>
      rcases List.pairwise_cons.mp h with ⟨hq, ht⟩
      by_cases hle : q.1 ≤ p.1
      · simp only [insertByStamp, if_pos hle]
        refine List.pairwise_cons.mpr ⟨?_, h⟩
        intro b hb
        rcases List.mem_cons.mp hb with hb | hb
        · exact hb ▸ hle
        · exact le_trans (hq b hb) hle
      · simp only [insertByStamp, if_neg hle]
        refine List.pairwise_cons.mpr ⟨?_, ih ht⟩
        intro b hb
        rcases (mem_insertByStamp p b t).mp hb with hb | hb
        · exact hb ▸ le_of_lt (lt_of_not_le hle)
        · exact hq b hb

theorem stampsDesc_sortDesc (l : List (ℚ × Rec)) : StampsDesc (sortDesc l) := by
  induction l with
  | nil => exact List.Pairwise.nil
  | cons p t ih => exact stampsDesc_insertByStamp p (sortDesc t) ih

/-- The surviving entries of a scan are exactly the entries younger than the
timeout (needs only that the input is sorted newest-first). -/
theorem scanPending_kept_mem (timeout now : ℚ) (l : List (ℚ × Rec)) (hs : StampsDesc l)
    (p : ℚ × Rec) : p ∈ (scanPending timeout now l).1 ↔ p ∈ l ∧ now - p.1 < timeout := by
  induction l with
  | nil => simp [scanPending]
  | cons q rest ih =>
      rcases List.pairwise_cons.mp hs with ⟨hq, hrest⟩
      by_cases hy : now - q.1 < timeout
      · simp only [scanPending, if_pos hy, List.mem_cons, ih hrest]
        constructor
        · rintro (h | ⟨h1, h2⟩)
          · exact ⟨Or.inl h, h ▸ hy⟩
          · exact ⟨Or.inr h1, h2⟩
        · rintro ⟨h1 | h1, h2⟩
          · exact Or.inl h1
          · exact Or.inr ⟨h1, h2⟩
      · simp only [scanPending, if_neg hy, List.not_mem_nil, false_iff, List.mem_cons]
        rintro ⟨h1 | h1, h2⟩
        · exact hy (h1 ▸ h2)
        · exact hy (lt_of_le_of_lt (by linarith [hq p h1]) h2)

/-- Soundness of the committed entry: it is an entry of the queue, is at
least `timeout` old, and is the newest such entry. -/
theorem scanPending_commit_sound (timeout now : ℚ) (l : List (ℚ × Rec)) (hs : StampsDesc l)
    (p : ℚ × Rec) (h : (scanPending timeout now l).2 = some p) :
    p ∈ l ∧ timeout ≤ now - p.1 ∧ ∀ p' ∈ l, timeout ≤ now - p'.1 → p'.1 ≤ p.1 := by
  induction l with
  | nil => simp [scanPending] at h
  | cons q rest ih =>
      rcases List.pairwise_cons.mp hs with ⟨hq, hrest⟩
      by_cases hy : now - q.1 < timeout
      · simp only [scanPending, if_pos hy] at h
        obtain ⟨h1, h2, h3⟩ := ih hrest h
        refine ⟨List.mem_cons_of_mem _ h1, h2, ?_⟩
        intro p' hp' hold
        rcases List.mem_cons.mp hp' with hp' | hp'
        · exact absurd (hp' ▸ hold) (not_le.mpr hy)
        · exact h3 p' hp' hold
      · simp only [scanPending, if_neg hy, Option.some.injEq] at h
        subst h
        refine ⟨List.mem_cons_self _ _, not_lt.mp hy, ?_⟩
        intro p' hp' _
        rcases List.mem_cons.mp hp' with hp' | hp'
        · exact hp' ▸ le_refl _
        · exact hq p' hp'

/-- Completeness of the committed entry: if the queue holds an entry that is
at least `timeout` old and newest among those (timestamps distinct), the scan
commits exactly it. -/
theorem scanPending_commit_complete (timeout now : ℚ) (l : List (ℚ × Rec))
    (hs : StampsDesc l) (hnd : (l.map Prod.fst).Nodup)
    (p : ℚ × Rec) (hmem : p ∈ l) (hold : timeout ≤ now - p.1)
    (hmax : ∀ p' ∈ l, timeout ≤ now - p'.1 → p'.1 ≤ p.1) :
    (scanPending timeout now l).2 = some p := by
  induction l with
  | nil => cases hmem
  | cons q rest ih =>
      rcases List.pairwise_cons.mp hs with ⟨hq, hrest⟩
      rcases List.pairwise_cons.mp ((List.pairwise_map).mp hnd) with ⟨hqnd, hrestnd⟩
      by_cases hy : now - q.1 < timeout
      · simp only [scanPending, if_pos hy]
        rcases List.mem_cons.mp hmem with hmem | hmem
        · exact absurd (hmem ▸ hold) (not_le.mpr hy)
        · exact ih hrest ((List.pairwise_map).mpr hrestnd) hmem
            (fun p' hp' h' => hmax p' (List.mem_cons_of_mem _ hp') h')
      · simp only [scanPending, if_neg hy, Option.some.injEq]
        rcases List.mem_cons.mp hmem with hmem | hmem
        · exact hmem.symm
        · exfalso
          have h1 : p.1 ≤ q.1 := hq p hmem
          have h2 : q.1 ≤ p.1 := hmax q (List.mem_cons_self _ _) (not_lt.mp hy)
          exact hqnd p hmem (le_antisymm h2 h1)

theorem nodup_keys_sortDesc (l : List (ℚ × Rec)) (h : (l.map Prod.fst).Nodup) :
    ((sortDesc l).map Prod.fst).Nodup :=
  (((perm_sortDesc l).map Prod.fst).nodup_iff).mpr h

/-- Characterization of the surviving entries of a resolution pass. -/
theorem resolvePass_kept_mem (timeout now : ℚ) (q : List (ℚ × Rec)) (p : ℚ × Rec) :
    p ∈ (resolvePass timeout now q).1 ↔ p ∈ q ∧ now - p.1 < timeout := by
  rw [resolvePass, scanPending_kept_mem timeout now _ (stampsDesc_sortDesc q), mem_sortDesc]

/-- Soundness of the committed entry of a resolution pass. -/
theorem resolvePass_commit_sound (timeout now : ℚ) (q : List (ℚ × Rec)) (p : ℚ × Rec)
    (h : (resolvePass timeout now q).2 = some p) :
    p ∈ q ∧ timeout ≤ now - p.1 ∧ ∀ p' ∈ q, timeout ≤ now - p'.1 → p'.1 ≤ p.1 := by
  obtain ⟨h1, h2, h3⟩ := scanPending_commit_sound timeout now _ (stampsDesc_sortDesc q) p h
  exact ⟨(mem_sortDesc p q).mp h1, h2, fun p' hp' h' => h3 p' ((mem_sortDesc p' q).mpr hp') h'⟩

/-- Completeness of the committed entry of a resolution pass. -/
theorem resolvePass_commit_complete (timeout now : ℚ) (q : List (ℚ × Rec))
    (hnd : (q.map Prod.fst).Nodup) (p : ℚ × Rec) (hmem : p ∈ q)
    (hold : timeout ≤ now - p.1)
    (hmax : ∀ p' ∈ q, timeout ≤ now - p'.1 → p'.1 ≤ p.1) :
    (resolvePass timeout now q).2 = some p :=
  scanPending_commit_complete timeout now _ (stampsDesc_sortDesc q)
    (nodup_keys_sortDesc q hnd) p ((mem_sortDesc p q).mpr hmem) hold
    (fun p' hp' h' => hmax p' ((mem_sortDesc p' q).mp hp') h')

/-- If no commit fired, the queue is unchanged up to order. -/
theorem resolvePass_none (timeout now : ℚ) (q : List (ℚ × Rec))
    (hall : ∀ p ∈ q, now - p.1 < timeout) :
    (resolvePass timeout now q).2 = none := by
  cases hc : (resolvePass timeout now q).2 with
  | none => rfl
  | some p =>
      obtain ⟨h1, h2, _⟩ := resolvePass_commit_sound timeout now q p hc
      exact absurd (hall p h1) (not_lt.mpr h2)

/-- The surviving entries form a sublist of the sorted queue, so their
timestamps stay distinct. -/
theorem scanPending_kept_sublist (timeout now : ℚ) (l : List (ℚ × Rec)) :
    List.Sublist (scanPending timeout now l).1 l := by
  induction l with
  | nil => simp [scanPending]
  | cons q rest ih =>
      by_cases hy : now - q.1 < timeout
      · simpa [scanPending, hy] using ih.cons₂ q
      · simp [scanPending, hy]

theorem resolvePass_kept_nodup (timeout now : ℚ) (q : List (ℚ × Rec))
    (hnd : (q.map Prod.fst).Nodup) :
    (((resolvePass timeout now q).1).map Prod.fst).Nodup :=
  ((scanPending_kept_sublist timeout now (sortDesc q)).map Prod.fst).nodup
    (nodup_keys_sortDesc q hnd)

/-! ## Window-level and global operations

State carried by a `SKeeperWindowActivatable`: its `pending_states` dict and
its `pending_timer`; the global (class-level) state of
`SKeeperAppActivatable`: `files_per_window`, `global_pending` and
`global_timer`.  `save_state` only serializes, so each operation returns a
flag telling whether it invoked `save_state`. -/

/-- Per-window mutable state (`pending_states`, `pending_timer`).  The timer
is the scheduled delay, `none` when no timer is outstanding. -/
structure WinState where
  pending : List (ℚ × Rec)
  timer : Option ℚ
  deriving DecidableEq

/-- Global class-level state of `SKeeperAppActivatable`. -/
structure GState where
  files : List (String × Rec)
  globalPending : List (String × List (ℚ × Rec))
  globalTimer : Option ℚ
  deriving DecidableEq

/-- `SKeeperWindowActivatable.process_pending` (`sessionkeeper.py:219-250`):
cancel the timer, run the resolution pass, write the committed record (if
any) into `files_per_window[self.uuid]`, call `save_state` iff a commit
happened.  Returns (window state, files map, save_state called?). -/
def process_pending (timeout now : ℚ) (uuid : String) (w : WinState)
    (files : List (String × Rec)) : WinState × List (String × Rec) × Bool :=
  (⟨(resolvePass timeout now w.pending).1, none⟩,
   match (resolvePass timeout now w.pending).2 with
   | some c => aset files uuid c.2
   | none => files,
   ((resolvePass timeout now w.pending).2).isSome)

/-- `SKeeperWindowActivatable.cancel_pending` (`sessionkeeper.py:261-267`):
cancel the timer and drop all pending states, no commit. -/
def cancel_pending (_w : WinState) : WinState := ⟨[], none⟩

/-- `SKeeperWindowActivatable.on_tab_add_event` (`sessionkeeper.py:332-356`).
Inputs beyond the state: the `loading` flag, the result of `just_loaded()`,
whether the added tab's document has a location (`tab.get_document().get_location()`),
and `get_state()`'s result `cur`.  Output: (window state, files map,
save_state called?, close of the default empty tab scheduled?). -/
def on_tab_add_event (loading justLoaded hasLoc : Bool) (uuid : String) (cur : Rec)
    (w : WinState) (files : List (String × Rec)) :
    WinState × List (String × Rec) × Bool × Bool :=
  if loading then (w, files, false, false)
  else if justLoaded && !hasLoc then (w, files, false, !files.isEmpty)
  else (cancel_pending w, aset files uuid cur, true, false)

/-- `SKeeperWindowActivatable.on_tab_change_event` (`sessionkeeper.py:358-369`)
outside the loading phase: resolve with the event's timestamp as `now`, then
insert `(timestamp, get_state())` into the pending dict, then schedule the
resolution timer for `0.1 + exit_timeout`. -/
def on_tab_change_event (timeout t : ℚ) (uuid : String) (cur : Rec) (w : WinState)
    (files : List (String × Rec)) : WinState × List (String × Rec) × Bool :=
  match process_pending timeout t uuid w files with
  | (w1, files1, saved) => (⟨aset w1.pending t cur, some (timeout + 1/10)⟩, files1, saved)

/-- The body of the `for win_id in cls.global_pending` loop
(`sessionkeeper.py:160-177`), acting on the accumulator (queues rebuilt so
far, `files_per_window`, `changed`): the queue's resolution pass survivors
replace the queue; a committed non-empty record overwrites the window's
committed entry, a committed empty record deletes it; `changed` is set when
a commit happened. -/
def pgp_step (timeout now : ℚ)
    (acc : List (String × List (ℚ × Rec)) × List (String × Rec) × Bool)
    (wq : String × List (ℚ × Rec)) :
    List (String × List (ℚ × Rec)) × List (String × Rec) × Bool :=
  (acc.1 ++ [(wq.1, (resolvePass timeout now wq.2).1)],
   match (resolvePass timeout now wq.2).2 with
   | some c => if c.2.isEmpty then aerase acc.2.1 wq.1 else aset acc.2.1 wq.1 c.2
   | none => acc.2.1,
   acc.2.2 || ((resolvePass timeout now wq.2).2).isSome)

/-- `SKeeperAppActivatable.process_global_pending` (`sessionkeeper.py:148-182`):
cancel the global timer; fold the loop body over every window id in
`global_pending`; queues that end up empty are dropped; `save_state` is
called iff any commit happened. -/
def process_global_pending (timeout now : ℚ) (g : GState) : GState × Bool :=
  (⟨(g.globalPending.foldl (pgp_step timeout now) ([], g.files, false)).2.1,
    ((g.globalPending.foldl (pgp_step timeout now) ([], g.files, false)).1).filter
      (fun wq => !wq.2.isEmpty),
    none⟩,
   (g.globalPending.foldl (pgp_step timeout now) ([], g.files, false)).2.2)

/-- `SKeeperAppActivatable.schedule_global_pending` (`sessionkeeper.py:184-191`). -/
def schedule_global_pending (timeout : ℚ) (g : GState) : GState :=
  { g with globalTimer := some (timeout + 1/10) }

/-- `SKeeperAppActivatable.dump_final_states` (`sessionkeeper.py:193-199`):
run `process_global_pending`, then assign (`global_pending[win_id] =
pending_states`, an overwrite), then schedule the global timer. -/
def dump_final_states (timeout now : ℚ) (winId : String) (pq : List (ℚ × Rec))
    (g : GState) : GState × Bool :=
  (schedule_global_pending timeout
    { (process_global_pending timeout now g).1 with
      globalPending := aset (process_global_pending timeout now g).1.globalPending winId pq },
   (process_global_pending timeout now g).2)

/-! ## `get_state` (`sessionkeeper.py:269-286`) -/

/-- What `get_state` reads off one document returned by
`window.get_documents()`: the identity of its tab group
(`Gedit.Tab.get_from_document(document).get_parent()`, modelled by a number)
and the URI of its location, `none` when the document has no backing file
(or no URI). -/
structure Doc where
  group : Nat
  location : Option String
  deriving DecidableEq

/-- `state[tab_group_index].append(uri)`: append to the last group. -/
def appendLast (state : List (List String)) (u : String) : List (List String) :=
  match state with
  | [] => []
  | [grp] => [grp ++ [u]]
  | grp :: t => grp :: appendLast t u

/-- One iteration of the `get_state` loop: open a new (empty) group whenever
the tab group changes, then append the document's URI if it has one. -/
def get_state_step (acc : List (List String) × Option Nat) (d : Doc) :
    List (List String) × Option Nat :=
  match acc with
  | (state, cur) =>
    match (if cur = some d.group then (state, cur) else (state ++ [[]], some d.group)) with
    | (state', cur') =>
      match d.location with
      | some u => (appendLast state' u, cur')
      | none => (state', cur')

/-- `SKeeperWindowActivatable.get_state`. -/
def get_state (docs : List Doc) : Rec :=
  (docs.foldl get_state_step ([], none)).1

/-! ## Loading the persisted payload (`sessionkeeper.py:380-398`)

`on_window_show` reads the `window-files` string and runs `json.loads` on
it.  `json.loads` is external library code; its result is modelled as an
`Option PyJson` parameter (`none` models a raised decoding exception). -/

/-- A Python value as produced by `json.loads`. -/
inductive PyJson where
  | jnull : PyJson
  | jbool : Bool → PyJson
  | jnum : Int → PyJson
  | jstr : String → PyJson
  | jarr : List PyJson → PyJson
  | jobj : List (String × PyJson) → PyJson

/-- The value of the local `saved_state` after the `try`/`except` block of
`on_window_show` (`sessionkeeper.py:385-398`).  `saved_state` starts as `{}`;
for a non-empty payload, `saved_state = json.loads(payload)` is executed
first, and only then `isinstance(saved_state, dict)` is checked.  The raised
`TypeError` is caught, but the `except` handler never resets `saved_state`,
so a successfully decoded non-dict value stays in `saved_state`. -/
def load_saved_state (payload : String) (parsed : Option PyJson) : PyJson :=
  if payload = "" then .jobj []
  else
    match parsed with
    | none => .jobj []
    | some v => v

/-- `saved_state.keys()` as used at `sessionkeeper.py:401`; `none` models the
`AttributeError` raised when `saved_state` is not a dict. -/
def pyKeys : PyJson → Option (List String)
  | .jobj l => some (l.map Prod.fst)
  | _ => none

/-! ## The claim loop of `on_window_show` (`sessionkeeper.py:400-444`)

The loop iterates the keys of `saved_state` in insertion order, removing
each visited key from `uuids_left`; ids already present in
`files_per_window` and ids with an empty record are skipped; the first
remaining id is claimed: the window re-tags itself with it, replays the
record's groups, and writes `get_state()` (the observed post-replay state,
modelled by the parameter `observe`) into `files_per_window`, then breaks.
Afterwards a new window is spawned iff `uuids_left` is non-empty, and
otherwise `mark_loaded` runs.  No `save_state` call occurs anywhere in
`on_window_show`. -/

/-- The claim loop.  Returns (claimed id, `uuids_left` after the loop,
updated `files_per_window`). -/
def claim_loop (committed : List (String × Rec)) (observe : String → Rec) :
    List (String × Rec) → Option String × List String × List (String × Rec)
  | [] => (none, [], committed)
  | (winId, groups) :: rest =>
    if (alookup committed winId).isSome then claim_loop committed observe rest
    else if groups.isEmpty then claim_loop committed observe rest
    else (some winId, rest.map Prod.fst, aset committed winId (observe winId))

/-- Result of one `on_window_show` run. -/
structure ShowResult where
  claimed : Option String
  files : List (String × Rec)
  spawned : Bool
  markedLoaded : Bool
  saved : Bool
  deriving DecidableEq

/-- `on_window_show` after the payload has been decoded into `saved_state`
(so for the runs where `saved_state` is a dict of records): the claim loop,
then spawn (iff `uuids_left` is non-empty) or mark-loaded.  No `save_state`
call occurs on any path. -/
def on_window_show_model (loading settingsOk : Bool) (saved_state : List (String × Rec))
    (committed : List (String × Rec)) (observe : String → Rec) : ShowResult :=
  if !loading then ⟨none, committed, false, false, false⟩
  else if !settingsOk then ⟨none, committed, false, false, false⟩
  else
    ⟨(claim_loop committed observe saved_state).1,
     (claim_loop committed observe saved_state).2.2,
     !((claim_loop committed observe saved_state).2.1).isEmpty,
     ((claim_loop committed observe saved_state).2.1).isEmpty,
     false⟩

/-! ## Helper lemmas about the operations -/

/-- The claim loop is: skip the longest prefix of already-claimed or empty
records, then claim the head of what remains (if anything remains). -/
theorem claim_loop_eq (committed : List (String × Rec)) (observe : String → Rec)
    (saved : List (String × Rec)) :
    claim_loop committed observe saved =
      match saved.dropWhile (fun p => (alookup committed p.1).isSome || p.2.isEmpty) with
      | [] => (none, [], committed)
      | p :: suf => (some p.1, suf.map Prod.fst, aset committed p.1 (observe p.1)) := by
  induction saved with
  | nil => rfl
  | cons hd rest ih =>
      obtain ⟨winId, groups⟩ := hd
      by_cases h1 : (alookup committed winId).isSome
      · simp only [claim_loop, if_pos h1, ih, List.dropWhile_cons, h1, Bool.true_or,
          if_pos]
      · by_cases h2 : groups.isEmpty
        · simp only [claim_loop, if_neg h1, if_pos h2, ih, List.dropWhile_cons]
          rw [if_pos]
          simp [h1, h2]
        · simp only [claim_loop, if_neg h1, if_neg h2, List.dropWhile_cons]
          rw [if_neg]
          simp [h1, h2]

/-- The first component of the `process_global_pending` fold: every queue is
replaced by the surviving entries of its resolution pass. -/
theorem pgp_fold_queues (timeout now : ℚ) (l : List (String × List (ℚ × Rec)))
    (acc1 : List (String × List (ℚ × Rec))) (f0 : List (String × Rec)) (b0 : Bool) :
    (l.foldl (pgp_step timeout now) (acc1, f0, b0)).1
    = acc1 ++ l.map (fun wq => (wq.1, (resolvePass timeout now wq.2).1)) := by
  induction l generalizing acc1 f0 b0 with
  | nil => simp
  | cons wq rest ih =>
      simp only [List.foldl_cons, pgp_step, List.map_cons]
      rw [ih]
      simp

/-- If the `process_global_pending` fold reports no change, the files map is
untouched (and the flag it started from was `false`). -/
theorem pgp_fold_unchanged (timeout now : ℚ) (l : List (String × List (ℚ × Rec))) :
    ∀ (acc1 : List (String × List (ℚ × Rec))) (f0 : List (String × Rec)) (b0 : Bool),
    (l.foldl (pgp_step timeout now) (acc1, f0, b0)).2.2 = false →
    (l.foldl (pgp_step timeout now) (acc1, f0, b0)).2.1 = f0 ∧ b0 = false := by
  induction l with
  | nil =>
      intro acc1 f0 b0 h
      exact ⟨rfl, h⟩
  | cons wq rest ih =>
      intro acc1 f0 b0 h
      simp only [List.foldl_cons, pgp_step] at h ⊢
      obtain ⟨hf, hb⟩ := ih _ _ _ h
      rcases Bool.or_eq_false_iff.mp hb with ⟨hb0, hcommit⟩
      have hnone : (resolvePass timeout now wq.2).2 = none :=
        Option.not_isSome_iff_eq_none.mp (by simp [hcommit])
      rw [hf, hnone]
      exact ⟨rfl, hb0⟩

theorem appendLast_concat (init : List (List String)) (grp : List String) (u : String) :
    appendLast (init ++ [grp]) u = init ++ [grp ++ [u]] := by
  induction init with
  | nil => rfl
  | cons a t ih =>
      cases t with
      | nil => rfl
      | cons b t2 =>
          simpa [appendLast] using ih

theorem join_appendLast (s : List (List String)) (u : String) (h : s ≠ []) :
    (appendLast s u).flatten = s.flatten ++ [u] := by
  obtain ⟨init, grp, rfl⟩ := List.eq_nil_or_concat s |>.resolve_left h
  rw [List.concat_eq_append, appendLast_concat]
  simp

theorem appendLast_ne_nil (s : List (List String)) (u : String) (h : s ≠ []) :
    appendLast s u ≠ [] := by
  obtain ⟨init, grp, rfl⟩ := List.eq_nil_or_concat s |>.resolve_left h
  rw [List.concat_eq_append, appendLast_concat]
  simp

theorem mem_appendLast_ne_nil (s : List (List String)) (u : String)
    (h : ∀ g ∈ s, g ≠ []) : ∀ g ∈ appendLast s u, g ≠ [] := by
  induction s with
  | nil => simp [appendLast]
  | cons a t ih =>
      cases t with
      | nil =>
          intro g hg
          simp only [appendLast, List.mem_singleton] at hg
          subst hg
          simp
      | cons b t2 =>
          intro g hg
          simp only [appendLast, List.mem_cons] at hg
          rcases hg with rfl | hg
          · exact h g (List.mem_cons_self _ _)
          · exact ih (fun g' hg' => h g' (List.mem_cons_of_mem _ hg')) g hg

/-- The URIs collected by `get_state`, flattened, are exactly the locations
of the located documents, in order (documents with no location are
omitted). -/
theorem get_state_fold_join (docs : List Doc) :
    ∀ (state : List (List String)) (cur : Option Nat), (cur ≠ none → state ≠ []) →
    ((docs.foldl get_state_step (state, cur)).1).flatten
      = state.flatten ++ docs.filterMap (fun d => d.location) := by
  induction docs with
  | nil => intro state cur _; simp
  | cons d ds ih =>
      intro state cur hinv
      by_cases hg : cur = some d.group
      · cases hloc : d.location with
        | none =>
            simp only [List.foldl_cons, get_state_step, if_pos hg, hloc, List.filterMap_cons]
            rw [ih state cur hinv]
        | some u =>
            have hne : state ≠ [] := hinv (hg ▸ (by simp))
            simp only [List.foldl_cons, get_state_step, if_pos hg, hloc, List.filterMap_cons]
            rw [ih (appendLast state u) cur (fun _ => appendLast_ne_nil state u hne),
              join_appendLast state u hne]
            simp
      · cases hloc : d.location with
        | none =>
            simp only [List.foldl_cons, get_state_step, if_neg hg, hloc, List.filterMap_cons]
            rw [ih (state ++ [[]]) (some d.group) (fun _ => by simp)]
            simp
        | some u =>
            simp only [List.foldl_cons, get_state_step, if_neg hg, hloc, List.filterMap_cons]
            rw [appendLast_concat state [] u, List.nil_append,
              ih (state ++ [[u]]) (some d.group) (fun _ => by simp)]
            simp

/-- If every document has a location, every group built by the `get_state`
fold is non-empty. -/
theorem get_state_fold_ne_nil (docs : List Doc) :
    ∀ (state : List (List String)) (cur : Option Nat), (∀ g ∈ state, g ≠ []) →
    (∀ d ∈ docs, d.location.isSome) →
    ∀ g ∈ (docs.foldl get_state_step (state, cur)).1, g ≠ [] := by
  induction docs with
  | nil => intro state cur hs _; simpa using hs
  | cons d ds ih =>
      intro state cur hs hloc
      obtain ⟨u, hu⟩ := Option.isSome_iff_exists.mp (hloc d (List.mem_cons_self _ _))
      have hloc' : ∀ d' ∈ ds, d'.location.isSome :=
        fun d' hd' => hloc d' (List.mem_cons_of_mem _ hd')
      by_cases hg : cur = some d.group
      · simp only [List.foldl_cons, get_state_step, if_pos hg, hu]
        exact ih (appendLast state u) cur (mem_appendLast_ne_nil state u hs) hloc'
      · simp only [List.foldl_cons, get_state_step, if_neg hg, hu]
        rw [appendLast_concat state [] u, List.nil_append]
        refine ih (state ++ [[u]]) (some d.group) ?_ hloc'
        intro g hg'
        rcases List.mem_append.mp hg' with hg' | hg'
        · exact hs g hg'
        · simp only [List.mem_singleton] at hg'
          subst hg'
          simp

/-! ## Serialization (`save_state`, `sessionkeeper.py:137-145`) and
deserialization (`json.loads` at `sessionkeeper.py:388`) of the session map

`save_state` runs `json.dumps(cls.files_per_window)` — a dict mapping UUID
strings to lists of lists of URI strings — with `json.dumps` defaults:
`ensure_ascii=True` and separators `(", ", ": ")`.  `dumpsObj` below
reproduces that output character by character (two-character escapes for
`\"`, `\\`, `\b`, `\t`, `\n`, `\f`, `\r`; `\uXXXX` with lowercase hex
digits for other control characters and for every character above `0x7E`,
using surrogate pairs above `0xFFFF`).

`js_loads` models `json.loads` restricted to this exact grammar: the
grammar `json.dumps` emits for such dicts (`json.loads` accepts a superset
— extra whitespace and other value types — which `save_state` output never
contains; on duplicate object keys `json.loads` keeps the last value,
which is why theorems below restrict to maps with distinct keys, the only
maps a Python dict can produce). -/

/-- Lowercase hex digit, as `json.dumps` emits in `\uXXXX` escapes. -/
def hexDigit (n : Nat) : Char :=
  if n < 10 then Char.ofNat (48 + n) else Char.ofNat (87 + n)

/-- Four lowercase hex digits of `n < 0x10000`, most significant first. -/
def hex4 (n : Nat) : List Char :=
  [hexDigit (n / 4096 % 16), hexDigit (n / 256 % 16), hexDigit (n / 16 % 16),
   hexDigit (n % 16)]

/-- `json.dumps`'s encoding of one character inside a string literal
(`ensure_ascii=True`). -/
def encodeChar (c : Char) : List Char :=
  let n := c.toNat
  if n = 34 then ['\\', '"']
  else if n = 92 then ['\\', '\\']
  else if n = 8 then ['\\', 'b']
  else if n = 9 then ['\\', 't']
  else if n = 10 then ['\\', 'n']
  else if n = 12 then ['\\', 'f']
  else if n = 13 then ['\\', 'r']
  else if n < 32 then '\\' :: 'u' :: hex4 n
  else if n < 127 then [c]
  else if n < 65536 then '\\' :: 'u' :: hex4 n
  else '\\' :: 'u' :: hex4 (55296 + (n - 65536) / 1024)
       ++ ('\\' :: 'u' :: hex4 (56320 + (n - 65536) % 1024))

/-- Concatenation of the encodings of a list of characters. -/
def encodeChars : List Char → List Char
  | [] => []
  | c :: t => encodeChar c ++ encodeChars t

/-- A JSON string literal for `s`, quotes included. -/
def dumpsStr (s : String) : List Char :=
  '"' :: encodeChars s.data ++ ['"']

/-- `", "`-separated rendering of a list (the separator `json.dumps` uses
between array items and object members). -/
def dumpsList {α : Type} (f : α → List Char) : List α → List Char
  | [] => []
  | [x] => f x
  | x :: t => f x ++ ',' :: ' ' :: dumpsList f t

/-- A JSON array of strings (one tab group). -/
def dumpsGroup (g : List String) : List Char :=
  '[' :: dumpsList dumpsStr g ++ [']']

/-- A JSON array of arrays of strings (one window record). -/
def dumpsRec (r : Rec) : List Char :=
  '[' :: dumpsList dumpsGroup r ++ [']']

/-- One object member, `"key": value`. -/
def dumpsMember (p : String × Rec) : List Char :=
  dumpsStr p.1 ++ ':' :: ' ' :: dumpsRec p.2

/-- The JSON object `json.dumps(files_per_window)` produces. -/
def dumpsObj (m : List (String × Rec)) : List Char :=
  '{' :: dumpsList dumpsMember m ++ ['}']

/-- `save_state`'s payload: `json.dumps(cls.files_per_window)`. -/
def js_dumps (m : List (String × Rec)) : String :=
  String.mk (dumpsObj m)

/-- Value of a hex digit character (`json.loads` accepts both cases). -/
def hexVal (c : Char) : Option Nat :=
  let n := c.toNat
  if 48 ≤ n ∧ n ≤ 57 then some (n - 48)
  else if 97 ≤ n ∧ n ≤ 102 then some (n - 87)
  else if 65 ≤ n ∧ n ≤ 70 then some (n - 55)
  else none

/-- The single-character escapes `json.loads` accepts after a backslash
(`\u` is handled separately). -/
def escChar (e : Char) : Option Char :=
  if e = '"' then some '"'
  else if e = '\\' then some '\\'
  else if e = '/' then some '/'
  else if e = 'b' then some (Char.ofNat 8)
  else if e = 'f' then some (Char.ofNat 12)
  else if e = 'n' then some '\n'
  else if e = 'r' then some '\r'
  else if e = 't' then some '\t'
  else none

/-- Prepend a decoded character to a string-body parse result. -/
def consParse (c : Char) : Option (List Char × List Char) → Option (List Char × List Char)
  | some (s, r) => some (c :: s, r)
  | none => none

/-- Four hex digits, most significant first. -/
def parseHex4 (l : List Char) : Option (Nat × List Char) :=
  match l with
  | a :: b :: c :: d :: rest =>
      (hexVal a).bind fun va =>
      (hexVal b).bind fun vb =>
      (hexVal c).bind fun vc =>
      (hexVal d).bind fun vd =>
      some (((va * 16 + vb) * 16 + vc) * 16 + vd, rest)
  | _ => none

/-- After a `\uXXXX` that decoded to a high surrogate `v`: require a
`\uXXXX` low surrogate and combine the pair (as `json.loads` does).
`k` continues parsing the string body. -/
def parseLowSur (k : List Char → Option (List Char × List Char)) (v : Nat)
    (l : List Char) : Option (List Char × List Char) :=
  if l.take 2 = ['\\', 'u'] then
    (parseHex4 (l.drop 2)).bind fun wr =>
      if 56320 ≤ wr.1 ∧ wr.1 < 57344 then
        consParse (Char.ofNat (65536 + (v - 55296) * 1024 + (wr.1 - 56320))) (k wr.2)
      else none
  else none

/-- A `\uXXXX` escape: a lone BMP scalar decodes directly, a high surrogate
requires a following low surrogate, a lone low surrogate is rejected. -/
def parseU (k : List Char → Option (List Char × List Char)) (l : List Char) :
    Option (List Char × List Char) :=
  (parseHex4 l).bind fun vr =>
    if 55296 ≤ vr.1 ∧ vr.1 < 56320 then parseLowSur k vr.1 vr.2
    else if 56320 ≤ vr.1 ∧ vr.1 < 57344 then none
    else consParse (Char.ofNat vr.1) (k vr.2)

/-- The character after a backslash: `\u` or one of the simple escapes. -/
def parseEsc (k : List Char → Option (List Char × List Char)) :
    List Char → Option (List Char × List Char)
  | [] => none
  | e :: rest2 =>
    if e = 'u' then parseU k rest2
    else
      match escChar e with
      | some ec => consParse ec (k rest2)
      | none => none

/-- Scan a string literal's body up to the closing quote, decoding escapes
(including surrogate pairs) and rejecting raw control characters, as
`json.loads` does in strict mode.  Returns the decoded characters and the
input after the closing quote.  `fuel` bounds the number of decoded
characters (every step consumes at least one input character, so any fuel
beyond the input length is enough). -/
def parseStrBody : Nat → List Char → Option (List Char × List Char)
  | 0, _ => none
  | _ + 1, [] => none
  | fuel + 1, c :: rest =>
    if c = '"' then some ([], rest)
    else if c = '\\' then parseEsc (parseStrBody fuel) rest
    else if c.toNat < 32 then none
    else consParse c (parseStrBody fuel rest)

/-- A string literal, opening quote included. -/
def parseStringE (l : List Char) : Option (String × List Char) :=
  match l with
  | '"' :: rest =>
      (parseStrBody (rest.length + 1) rest).map fun p => (String.mk p.1, p.2)
  | _ => none

/-- `", "`-separated elements (at least one), by the element parser `pf`;
`fuel` bounds the number of elements. -/
def parseElems {α : Type} (pf : List Char → Option (α × List Char)) :
    Nat → List Char → Option (List α × List Char)
  | 0, _ => none
  | fuel + 1, l =>
    (pf l).bind fun xr =>
      if xr.2.take 2 = [',', ' '] then
        (parseElems pf fuel (xr.2.drop 2)).bind fun xsr => some (xr.1 :: xsr.1, xsr.2)
      else some ([xr.1], xr.2)

/-- A JSON array with the element parser `pf` (empty array allowed). -/
def parseArr {α : Type} (pf : List Char → Option (α × List Char)) (fuel : Nat)
    (l : List Char) : Option (List α × List Char) :=
  if l.head? = some '[' then
    if l.tail.head? = some ']' then some ([], l.tail.tail)
    else
      (parseElems pf fuel l.tail).bind fun xsr =>
        if xsr.2.head? = some ']' then some (xsr.1, xsr.2.tail) else none
  else none

/-- A JSON array of strings. -/
def parseGroup (fuel : Nat) (l : List Char) : Option (List String × List Char) :=
  parseArr parseStringE fuel l

/-- A JSON array of arrays of strings. -/
def parseRec (fuel : Nat) (l : List Char) : Option (Rec × List Char) :=
  parseArr (parseGroup fuel) fuel l

/-- One object member, `"key": value`. -/
def parseMember (fuel : Nat) (l : List Char) : Option ((String × Rec) × List Char) :=
  (parseStringE l).bind fun kr =>
    if kr.2.take 2 = [':', ' '] then
      (parseRec fuel (kr.2.drop 2)).bind fun rr => some ((kr.1, rr.1), rr.2)
    else none

/-- The top-level JSON object. -/
def parseObjTop (fuel : Nat) (l : List Char) : Option (List (String × Rec) × List Char) :=
  if l.head? = some '{' then
    if l.tail.head? = some '}' then some ([], l.tail.tail)
    else
      (parseElems (parseMember fuel) fuel l.tail).bind fun xsr =>
        if xsr.2.head? = some '}' then some (xsr.1, xsr.2.tail) else none
  else none

/-- `json.loads` on a `save_state` payload: parse the object and require
the input to be fully consumed. -/
def js_loads (s : String) : Option (List (String × Rec)) :=
  (parseObjTop (s.length + 1) s.data).bind fun mr =>
    if mr.2 = [] then some mr.1 else none

/-! ### Round-trip lemmas: the parser inverts `json.dumps` output -/

theorem char_valid_range (c : Char) :
    c.toNat < 55296 ∨ (57343 < c.toNat ∧ c.toNat < 1114112) := by
  have h := c.valid
  unfold UInt32.isValidChar Nat.isValidChar at h
  rcases h with h | ⟨h1, h2⟩
  · exact Or.inl h
  · exact Or.inr ⟨h1, h2⟩

theorem char_eq_of_toNat_eq {c d : Char} (h : c.toNat = d.toNat) : c = d := by
  rw [← Char.ofNat_toNat c, h, Char.ofNat_toNat]

theorem hexVal_hexDigit : ∀ n, n < 16 → hexVal (hexDigit n) = some n := by decide

theorem parseStrBody_quote (fuel : Nat) (rest : List Char) :
    parseStrBody (fuel + 1) ('"' :: rest) = some ([], rest) := rfl

theorem parseStrBody_backslash (fuel : Nat) (rest : List Char) :
    parseStrBody (fuel + 1) ('\\' :: rest) = parseEsc (parseStrBody fuel) rest := rfl

theorem parseEsc_u (k : List Char → Option (List Char × List Char)) (rest : List Char) :
    parseEsc k ('u' :: rest) = parseU k rest := rfl

theorem parseHex4_digits (d3 d2 d1 d0 : Nat) (h3 : d3 < 16) (h2 : d2 < 16)
    (h1 : d1 < 16) (h0 : d0 < 16) (rest : List Char) :
    parseHex4 (hexDigit d3 :: hexDigit d2 :: hexDigit d1 :: hexDigit d0 :: rest)
      = some (((d3 * 16 + d2) * 16 + d1) * 16 + d0, rest) := by
  simp only [parseHex4, hexVal_hexDigit _ h3, hexVal_hexDigit _ h2, hexVal_hexDigit _ h1,
    hexVal_hexDigit _ h0, Option.some_bind]

theorem parseHex4_hex4 (n : Nat) (h : n < 65536) (rest : List Char) :
    parseHex4 (hex4 n ++ rest) = some (n, rest) := by
  simp only [hex4, List.cons_append, List.nil_append]
  rw [parseHex4_digits (n / 4096 % 16) (n / 256 % 16) (n / 16 % 16) (n % 16)
    (Nat.mod_lt _ (by norm_num)) (Nat.mod_lt _ (by norm_num)) (Nat.mod_lt _ (by norm_num))
    (Nat.mod_lt _ (by norm_num)) rest]
  congr 2
  omega

theorem parseU_bmp (k : List Char → Option (List Char × List Char)) (v : Nat)
    (rest3 l : List Char) (hl : parseHex4 l = some (v, rest3))
    (h1 : ¬(55296 ≤ v ∧ v < 56320)) (h2 : ¬(56320 ≤ v ∧ v < 57344)) :
    parseU k l = consParse (Char.ofNat v) (k rest3) := by
  unfold parseU
  rw [hl]
  simp only [Option.some_bind]
  rw [if_neg h1, if_neg h2]

theorem parseU_sur (k : List Char → Option (List Char × List Char)) (v : Nat)
    (rest3 l : List Char) (hl : parseHex4 l = some (v, rest3))
    (hv : 55296 ≤ v ∧ v < 56320) :
    parseU k l = parseLowSur k v rest3 := by
  unfold parseU
  rw [hl]
  simp only [Option.some_bind]
  rw [if_pos hv]

theorem parseLowSur_hit (k : List Char → Option (List Char × List Char)) (v w : Nat)
    (rest4 rest3' : List Char) (hl : parseHex4 rest3' = some (w, rest4))
    (hw : 56320 ≤ w ∧ w < 57344) :
    parseLowSur k v ('\\' :: 'u' :: rest3')
      = consParse (Char.ofNat (65536 + (v - 55296) * 1024 + (w - 56320))) (k rest4) := by
  unfold parseLowSur
  rw [if_pos (show List.take 2 ('\\' :: 'u' :: rest3') = ['\\', 'u'] from rfl)]
  simp only [List.drop_succ_cons, List.drop_zero]
  rw [hl]
  simp only [Option.some_bind]
  rw [if_pos hw]

set_option maxRecDepth 2048 in
/-- Decoding inverts `json.dumps`'s character encoding. -/
theorem encodeChar_parse (fuel : Nat) (c : Char) (tail : List Char) :
    parseStrBody (fuel + 1) (encodeChar c ++ tail) = consParse c (parseStrBody fuel tail) := by
  have hval := char_valid_range c
  by_cases h34 : c.toNat = 34
  · have hc : c = '"' := char_eq_of_toNat_eq (h34.trans (by decide))
    subst hc; rfl
  by_cases h92 : c.toNat = 92
  · have hc : c = '\\' := char_eq_of_toNat_eq (h92.trans (by decide))
    subst hc; rfl
  by_cases h8 : c.toNat = 8
  · have hc : c = Char.ofNat 8 := char_eq_of_toNat_eq (h8.trans (by decide))
    subst hc; rfl
  by_cases h9 : c.toNat = 9
  · have hc : c = '\t' := char_eq_of_toNat_eq (h9.trans (by decide))
    subst hc; rfl
  by_cases h10 : c.toNat = 10
  · have hc : c = '\n' := char_eq_of_toNat_eq (h10.trans (by decide))
    subst hc; rfl
  by_cases h12 : c.toNat = 12
  · have hc : c = Char.ofNat 12 := char_eq_of_toNat_eq (h12.trans (by decide))
    subst hc; rfl
  by_cases h13 : c.toNat = 13
  · have hc : c = '\r' := char_eq_of_toNat_eq (h13.trans (by decide))
    subst hc; rfl
  by_cases h32 : c.toNat < 32
  · have henc : encodeChar c = '\\' :: 'u' :: hex4 c.toNat := by
      simp only [encodeChar, if_neg h34, if_neg h92, if_neg h8, if_neg h9, if_neg h10,
        if_neg h12, if_neg h13, if_pos h32]
    rw [henc, List.cons_append, List.cons_append, parseStrBody_backslash, parseEsc_u,
      parseU_bmp _ _ _ _ (parseHex4_hex4 c.toNat (by omega) tail) (by omega) (by omega),
      Char.ofNat_toNat]
  by_cases h127 : c.toNat < 127
  · have henc : encodeChar c = [c] := by
      simp only [encodeChar, if_neg h34, if_neg h92, if_neg h8, if_neg h9, if_neg h10,
        if_neg h12, if_neg h13, if_neg h32, if_pos h127]
    have hq : ¬ c = '"' := fun h => h34 (by rw [h]; decide)
    have hbs : ¬ c = '\\' := fun h => h92 (by rw [h]; decide)
    rw [henc, List.singleton_append]
    simp only [parseStrBody, if_neg hq, if_neg hbs, if_neg h32]
  by_cases h65536 : c.toNat < 65536
  · have henc : encodeChar c = '\\' :: 'u' :: hex4 c.toNat := by
      simp only [encodeChar, if_neg h34, if_neg h92, if_neg h8, if_neg h9, if_neg h10,
        if_neg h12, if_neg h13, if_neg h32, if_neg h127, if_pos h65536]
    rw [henc, List.cons_append, List.cons_append, parseStrBody_backslash, parseEsc_u,
      parseU_bmp _ _ _ _ (parseHex4_hex4 c.toNat h65536 tail)
        (by rcases hval with h | h <;> omega)
        (by rcases hval with h | h <;> omega), Char.ofNat_toNat]
  · have henc : encodeChar c = '\\' :: 'u' :: hex4 (55296 + (c.toNat - 65536) / 1024)
        ++ ('\\' :: 'u' :: hex4 (56320 + (c.toNat - 65536) % 1024)) := by
      simp only [encodeChar, if_neg h34, if_neg h92, if_neg h8, if_neg h9, if_neg h10,
        if_neg h12, if_neg h13, if_neg h32, if_neg h127, if_neg h65536]
    have hcbig : c.toNat < 1114112 := by rcases hval with h | h <;> omega
    have hdiv : (c.toNat - 65536) / 1024 < 1024 := by omega
    have hhi := parseHex4_hex4 (55296 + (c.toNat - 65536) / 1024) (by omega)
      ('\\' :: 'u' :: (hex4 (56320 + (c.toNat - 65536) % 1024) ++ tail))
    have hlo := parseHex4_hex4 (56320 + (c.toNat - 65536) % 1024)
      (by have := Nat.mod_lt (c.toNat - 65536) (show 0 < 1024 by norm_num); omega) tail
    rw [henc]
    have harr : ('\\' :: 'u' :: hex4 (55296 + (c.toNat - 65536) / 1024)
        ++ ('\\' :: 'u' :: hex4 (56320 + (c.toNat - 65536) % 1024))) ++ tail
        = '\\' :: 'u' :: (hex4 (55296 + (c.toNat - 65536) / 1024)
          ++ ('\\' :: 'u' :: (hex4 (56320 + (c.toNat - 65536) % 1024) ++ tail))) := by
      simp
    have hchar : Char.ofNat (65536 + (55296 + (c.toNat - 65536) / 1024 - 55296) * 1024
        + (56320 + (c.toNat - 65536) % 1024 - 56320)) = c := by
      rw [show 65536 + (55296 + (c.toNat - 65536) / 1024 - 55296) * 1024
          + (56320 + (c.toNat - 65536) % 1024 - 56320) = c.toNat from by omega,
        Char.ofNat_toNat]
    rw [harr, parseStrBody_backslash, parseEsc_u,
      parseU_sur _ _ _ _ hhi (by constructor <;> omega),
      parseLowSur_hit _ _ _ _ _ hlo
        (by have := Nat.mod_lt (c.toNat - 65536) (show 0 < 1024 by norm_num);
            constructor <;> omega),
      hchar]

/-- Decoding a whole encoded string body stops exactly at the closing
quote. -/
theorem encodeChars_parse (cs : List Char) : ∀ (fuel : Nat), cs.length ≤ fuel →
    ∀ (tail : List Char),
    parseStrBody (fuel + 1) (encodeChars cs ++ '"' :: tail) = some (cs, tail) := by
  induction cs with
  | nil =>
      intro fuel _ tail
      exact parseStrBody_quote fuel tail
  | cons c cs' ih =>
      intro fuel hfuel tail
      cases fuel with
      | zero => simp at hfuel
      | succ f =>
          have : encodeChars (c :: cs') ++ '"' :: tail
              = encodeChar c ++ (encodeChars cs' ++ '"' :: tail) := by
            simp [encodeChars]
          rw [this, encodeChar_parse (f + 1) c, ih f (by simpa using hfuel) tail]
          rfl

theorem one_le_encodeChar (c : Char) : 1 ≤ (encodeChar c).length := by
  simp only [encodeChar]
  repeat' split
  all_goals simp [hex4]

theorem encodeChars_length (cs : List Char) : cs.length ≤ (encodeChars cs).length := by
  induction cs with
  | nil => simp [encodeChars]
  | cons c cs' ih =>
      have := one_le_encodeChar c
      simp only [encodeChars, List.length_cons, List.length_append]
      omega

theorem parseStringE_quote (rest : List Char) :
    parseStringE ('"' :: rest)
      = (parseStrBody (rest.length + 1) rest).map fun p => (String.mk p.1, p.2) := rfl

/-- Parsing inverts `json.dumps`'s string serialization. -/
theorem dumpsStr_parse (s : String) (tail : List Char) :
    parseStringE (dumpsStr s ++ tail) = some (s, tail) := by
  have harr : dumpsStr s ++ tail = '"' :: (encodeChars s.data ++ '"' :: tail) := by
    simp [dumpsStr]
  rw [harr, parseStringE_quote]
  have hlen : s.data.length ≤ (encodeChars s.data ++ '"' :: tail).length := by
    have := encodeChars_length s.data
    simp only [List.length_append, List.length_cons]
    omega
  rw [encodeChars_parse s.data _ hlen tail]
  rfl

theorem take_two_ne_comma {tail : List Char} (h : tail.head? ≠ some ',') :
    ¬ tail.take 2 = [',', ' '] := by
  cases tail with
  | nil => simp
  | cons c t =>
      intro heq
      simp only [List.take_succ_cons] at heq
      have : c = ',' := (List.cons.injEq _ _ _ _).mp heq |>.1
      exact h (by rw [this]; rfl)

/-- Parsing a `", "`-joined list of serialized elements recovers the list,
provided the remainder does not begin with a comma and fuel covers the
element count. -/
theorem parseElems_rt {α : Type} (pf : List Char → Option (α × List Char))
    (f : α → List Char) :
    ∀ (xs : List α), xs ≠ [] →
    (∀ x ∈ xs, ∀ t, pf (f x ++ t) = some (x, t)) →
    ∀ (fuel : Nat), xs.length ≤ fuel →
    ∀ (tail : List Char), tail.head? ≠ some ',' →
    parseElems pf fuel (dumpsList f xs ++ tail) = some (xs, tail) := by
  intro xs
  induction xs with
  | nil => intro h; exact absurd rfl h
  | cons x xs' ih =>
      intro _ hrt fuel hfuel tail htail
      cases fuel with
      | zero => simp at hfuel
      | succ f0 =>
          cases xs' with
          | nil =>
              have harr : dumpsList f [x] ++ tail = f x ++ tail := rfl
              rw [harr]
              simp only [parseElems, hrt x (List.mem_cons_self _ _) tail, Option.some_bind]
              rw [if_neg (take_two_ne_comma htail)]
          | cons y t =>
              have harr : dumpsList f (x :: y :: t) ++ tail
                  = f x ++ (',' :: ' ' :: (dumpsList f (y :: t) ++ tail)) := by
                simp [dumpsList]
              rw [harr]
              simp only [parseElems, hrt x (List.mem_cons_self _ _), Option.some_bind]
              rw [if_pos (by rfl)]
              simp only [List.drop_succ_cons, List.drop_zero]
              rw [ih (by simp) (fun z hz => hrt z (List.mem_cons_of_mem _ hz)) f0
                (by simpa using hfuel) tail htail]
              rfl

/-- Parsing inverts array serialization, given element round trips and that
every serialized element starts with a character other than `]`. -/
theorem parseArr_rt {α : Type} (pf : List Char → Option (α × List Char))
    (f : α → List Char) (xs : List α)
    (hrt : ∀ x ∈ xs, ∀ t, pf (f x ++ t) = some (x, t))
    (hhd : ∀ x ∈ xs, ∃ c0 r0, f x = c0 :: r0 ∧ c0 ≠ ']')
    (fuel : Nat) (hfuel : xs.length ≤ fuel) (tail : List Char) :
    parseArr pf fuel (('[' :: dumpsList f xs ++ [']']) ++ tail) = some (xs, tail) := by
  cases xs with
  | nil =>
      show parseArr pf fuel ('[' :: ']' :: tail) = some ([], tail)
      simp [parseArr]
  | cons x xs' =>
      obtain ⟨c0, r0, hfx, hc0⟩ := hhd x (List.mem_cons_self _ _)
      have hdl : ∃ rest, dumpsList f (x :: xs') = c0 :: rest := by
        cases xs' with
        | nil => exact ⟨r0, by simp [dumpsList, hfx]⟩
        | cons y t => exact ⟨r0 ++ ',' :: ' ' :: dumpsList f (y :: t), by simp [dumpsList, hfx]⟩
      obtain ⟨rest, hrest⟩ := hdl
      have harr : ('[' :: dumpsList f (x :: xs') ++ [']']) ++ tail
          = '[' :: (dumpsList f (x :: xs') ++ ']' :: tail) := by simp
      have hcond : ¬ ((dumpsList f (x :: xs') ++ ']' :: tail).head? = some ']') := by
        rw [hrest]
        simp only [List.cons_append, List.head?_cons, Option.some.injEq]
        exact hc0
      rw [harr]
      unfold parseArr
      rw [if_pos (by rfl), List.tail_cons, if_neg hcond,
        parseElems_rt pf f (x :: xs') (by simp) hrt fuel hfuel (']' :: tail) (by simp)]
      simp

theorem dumpsGroup_parse (g : List String) (fuel : Nat) (hfuel : g.length ≤ fuel)
    (tail : List Char) : parseGroup fuel (dumpsGroup g ++ tail) = some (g, tail) := by
  have harr : dumpsGroup g ++ tail = ('[' :: dumpsList dumpsStr g ++ [']']) ++ tail := by
    simp [dumpsGroup]
  rw [harr]
  exact parseArr_rt parseStringE dumpsStr g (fun x _ t => dumpsStr_parse x t)
    (fun x _ => ⟨'"', encodeChars x.data ++ ['"'], rfl, by decide⟩) fuel hfuel tail

theorem dumpsRec_parse (r : Rec) (fuel : Nat) (h1 : r.length ≤ fuel)
    (h2 : ∀ g ∈ r, g.length ≤ fuel) (tail : List Char) :
    parseRec fuel (dumpsRec r ++ tail) = some (r, tail) := by
  have harr : dumpsRec r ++ tail = ('[' :: dumpsList dumpsGroup r ++ [']']) ++ tail := by
    simp [dumpsRec]
  rw [harr]
  exact parseArr_rt (parseGroup fuel) dumpsGroup r
    (fun g hg t => dumpsGroup_parse g fuel (h2 g hg) t)
    (fun g _ => ⟨'[', dumpsList dumpsStr g ++ [']'], rfl, by decide⟩) fuel h1 tail

theorem dumpsMember_parse (p : String × Rec) (fuel : Nat) (h1 : p.2.length ≤ fuel)
    (h2 : ∀ g ∈ p.2, g.length ≤ fuel) (tail : List Char) :
    parseMember fuel (dumpsMember p ++ tail) = some (p, tail) := by
  have harr : dumpsMember p ++ tail = dumpsStr p.1 ++ (':' :: ' ' :: (dumpsRec p.2 ++ tail)) := by
    simp [dumpsMember]
  rw [harr]
  unfold parseMember
  rw [dumpsStr_parse p.1]
  simp only [Option.some_bind]
  rw [if_pos (by rfl)]
  simp only [List.drop_succ_cons, List.drop_zero]
  rw [dumpsRec_parse p.2 fuel h1 h2 tail]
  rfl

/-- Parsing inverts object serialization, given fuel covering the member
count and each member's record/group counts. -/
theorem dumpsObj_parse (m : List (String × Rec)) (fuel : Nat)
    (h1 : m.length ≤ fuel) (h2 : ∀ p ∈ m, p.2.length ≤ fuel)
    (h3 : ∀ p ∈ m, ∀ g ∈ p.2, g.length ≤ fuel) (tail : List Char) :
    parseObjTop fuel (dumpsObj m ++ tail) = some (m, tail) := by
  cases m with
  | nil =>
      show parseObjTop fuel ('{' :: '}' :: tail) = some ([], tail)
      simp [parseObjTop]
  | cons p m' =>
      have hrt : ∀ q ∈ p :: m', ∀ t, parseMember fuel (dumpsMember q ++ t) = some (q, t) :=
        fun q hq t => dumpsMember_parse q fuel (h2 q hq) (h3 q hq) t
      have hrest : ∃ rest, dumpsList dumpsMember (p :: m') = '"' :: rest := by
        cases m' with
        | nil => exact ⟨encodeChars p.1.data ++ ['"'] ++ ':' :: ' ' :: dumpsRec p.2, by
            simp [dumpsList, dumpsMember, dumpsStr]⟩
        | cons q t => exact ⟨encodeChars p.1.data ++ ['"'] ++ ':' :: ' ' :: dumpsRec p.2
            ++ ',' :: ' ' :: dumpsList dumpsMember (q :: t), by
            simp [dumpsList, dumpsMember, dumpsStr]⟩
      obtain ⟨rest, hr⟩ := hrest
      have harr : dumpsObj (p :: m') ++ tail
          = '{' :: (dumpsList dumpsMember (p :: m') ++ '}' :: tail) := by
        simp [dumpsObj]
      have hcond : ¬ ((dumpsList dumpsMember (p :: m') ++ '}' :: tail).head? = some '}') := by
        rw [hr]
        simp only [List.cons_append, List.head?_cons, Option.some.injEq]
        decide
      rw [harr]
      unfold parseObjTop
      rw [if_pos (by rfl), List.tail_cons, if_neg hcond,
        parseElems_rt (parseMember fuel) dumpsMember (p :: m') (by simp) hrt fuel h1
          ('}' :: tail) (by simp)]
      simp

/-! ### Fuel bounds: element counts never exceed the payload's length -/

theorem elem_le_dumpsList {α : Type} (f : α → List Char) (xs : List α) (x : α)
    (hx : x ∈ xs) : (f x).length ≤ (dumpsList f xs).length := by
  induction xs with
  | nil => cases hx
  | cons y t ih =>
      cases t with
      | nil =>
          rcases List.mem_singleton.mp hx with rfl
          exact le_refl _
      | cons z t2 =>
          rcases List.mem_cons.mp hx with rfl | hx
          · simp only [dumpsList, List.length_append, List.length_cons]
            omega
          · have := ih hx
            simp only [dumpsList, List.length_append, List.length_cons]
            omega

theorem count_le_dumpsList {α : Type} (f : α → List Char) (xs : List α)
    (h : ∀ x ∈ xs, 1 ≤ (f x).length) : xs.length ≤ (dumpsList f xs).length := by
  induction xs with
  | nil => simp [dumpsList]
  | cons y t ih =>
      cases t with
      | nil =>
          simpa using h y (List.mem_cons_self _ _)
      | cons z t2 =>
          have h1 := h y (List.mem_cons_self _ _)
          have h2 := ih (fun x hx => h x (List.mem_cons_of_mem _ hx))
          simp only [dumpsList, List.length_append, List.length_cons] at h2 ⊢
          omega

theorem one_le_dumpsStr (s : String) : 1 ≤ (dumpsStr s).length := by
  simp [dumpsStr]

theorem one_le_dumpsGroup (g : List String) : 1 ≤ (dumpsGroup g).length := by
  simp [dumpsGroup]

theorem one_le_dumpsMember (p : String × Rec) : 1 ≤ (dumpsMember p).length := by
  have := one_le_dumpsStr p.1
  simp only [dumpsMember, List.length_append]
  omega

theorem group_len_le (g : List String) : g.length ≤ (dumpsGroup g).length := by
  have := count_le_dumpsList dumpsStr g (fun s _ => one_le_dumpsStr s)
  simp only [dumpsGroup, List.length_cons, List.length_append]
  omega

theorem rec_len_le (r : Rec) : r.length ≤ (dumpsRec r).length := by
  have := count_le_dumpsList dumpsGroup r (fun g _ => one_le_dumpsGroup g)
  simp only [dumpsRec, List.length_cons, List.length_append]
  omega

theorem obj_len_le (m : List (String × Rec)) : m.length ≤ (dumpsObj m).length := by
  have := count_le_dumpsList dumpsMember m (fun p _ => one_le_dumpsMember p)
  simp only [dumpsObj, List.length_cons, List.length_append]
  omega

theorem rec_le_member (p : String × Rec) : (dumpsRec p.2).length ≤ (dumpsMember p).length := by
  simp only [dumpsMember, List.length_append, List.length_cons]
  omega

theorem member_le_obj (m : List (String × Rec)) (p : String × Rec) (hp : p ∈ m) :
    (dumpsMember p).length ≤ (dumpsObj m).length := by
  have := elem_le_dumpsList dumpsMember m p hp
  simp only [dumpsObj, List.length_cons, List.length_append]
  omega

theorem group_le_rec (r : Rec) (g : List String) (hg : g ∈ r) :
    (dumpsGroup g).length ≤ (dumpsRec r).length := by
  have := elem_le_dumpsList dumpsGroup r g hg
  simp only [dumpsRec, List.length_cons, List.length_append]
  omega

/-! ## Commit traces of one window (for the temporal claim)

A single window's tentative events (`on_tab_change_event`): each event at
timestamp `t` first runs `process_pending(t)` (possibly committing one
pending entry into `files_per_window`) and then inserts `(t, get_state())`
into the pending dict.  To speak about the *sequence* of commits, `TState`
carries, besides the pending dict, the list of commits performed so far
(each commit being the `files_per_window[self.uuid] = ...` write of
`process_pending`). -/

/-- Pending queue plus the history of commits (in order) for one window. -/
structure TState where
  pending : List (ℚ × Rec)
  trace : List (ℚ × Rec)
  deriving DecidableEq

/-- One `on_tab_change_event` at timestamp `e.1` recording state `e.2`:
resolve with the event's timestamp as `now` (appending the committed entry
to the trace, if any), then insert the entry into the pending dict. -/
def tentStep (timeout : ℚ) (s : TState) (e : ℚ × Rec) : TState :=
  ⟨aset (resolvePass timeout e.1 s.pending).1 e.1 e.2,
   s.trace ++ ((resolvePass timeout e.1 s.pending).2).toList⟩

/-- A sequence of tentative events on a freshly created window. -/
def runTent (timeout : ℚ) (events : List (ℚ × Rec)) : TState :=
  events.foldl (tentStep timeout) ⟨[], []⟩

/-- A bare `process_pending(now)` (e.g. the scheduled timer firing, or the
one in `do_deactivate`), with the commit appended to the trace. -/
def resolveStep (timeout now : ℚ) (s : TState) : TState :=
  ⟨(resolvePass timeout now s.pending).1,
   s.trace ++ ((resolvePass timeout now s.pending).2).toList⟩

/-- Invariant tying the trace and the pending queue: commits so far are in
strictly increasing timestamp order, all pending entries are newer than
every commit, and everything is bounded by the high-water mark `m`. -/
def TInv (s : TState) (m : ℚ) : Prop :=
  List.Chain' (fun a b => a.1 < b.1) s.trace
  ∧ (∀ c ∈ s.trace, ∀ p ∈ s.pending, c.1 < p.1)
  ∧ (∀ c ∈ s.trace, c.1 ≤ m)
  ∧ (∀ p ∈ s.pending, p.1 ≤ m)

theorem mem_of_getLast? {α : Type} : ∀ {l : List α} {x : α}, l.getLast? = some x → x ∈ l
  | [], x, hx => by simp at hx
  | [a], x, hx => by
      simp only [List.getLast?_singleton, Option.some.injEq] at hx
      simp [hx]
  | a :: b :: l, x, hx => by
      rw [List.getLast?_cons_cons] at hx
      exact List.mem_cons_of_mem _ (mem_of_getLast? hx)

theorem chain_le_getLast : ∀ (l : List (ℚ × Rec)) (lastE : ℚ × Rec),
    List.Chain' (fun a b => a.1 < b.1) l → l.getLast? = some lastE →
    ∀ p ∈ l, p.1 ≤ lastE.1
  | [], lastE, _, hl, p, hp => by simp at hp
  | [a], lastE, _, hl, p, hp => by
      simp only [List.getLast?_singleton, Option.some.injEq] at hl
      rcases List.mem_singleton.mp hp with rfl
      exact hl ▸ le_refl _
  | a :: b :: l, lastE, hc, hl, p, hp => by
      rw [List.getLast?_cons_cons] at hl
      rcases List.chain'_cons.mp hc with ⟨hab, hc'⟩
      rcases List.mem_cons.mp hp with rfl | hp
      · exact le_of_lt (lt_of_lt_of_le hab
          (chain_le_getLast (b :: l) lastE hc' hl b (List.mem_cons_self _ _)))
      · exact chain_le_getLast (b :: l) lastE hc' hl p hp

/-- One tentative event preserves the invariant, raising the high-water
mark to the event's timestamp. -/
theorem tentStep_inv (timeout : ℚ) (hT : 0 < timeout) (s : TState) (m : ℚ)
    (e : ℚ × Rec) (hinv : TInv s m) (hm : m < e.1) : TInv (tentStep timeout s e) e.1 := by
  obtain ⟨h1, h2, h3, h4⟩ := hinv
  have hkept : ∀ p ∈ (resolvePass timeout e.1 s.pending).1,
      p ∈ s.pending ∧ e.1 - p.1 < timeout :=
    fun p hp => (resolvePass_kept_mem timeout e.1 s.pending p).mp hp
  have hpend : ∀ p ∈ (tentStep timeout s e).pending,
      p = (e.1, e.2) ∨ (p ∈ s.pending ∧ e.1 - p.1 < timeout) := by
    intro p hp
    rcases mem_aset _ _ _ _ hp with h | h
    · exact Or.inl h
    · exact Or.inr (hkept p h)
  refine ⟨?_, ?_, ?_, ?_⟩
  · show List.Chain' _ (s.trace ++ ((resolvePass timeout e.1 s.pending).2).toList)
    cases hc : (resolvePass timeout e.1 s.pending).2 with
    | none => simpa using h1
    | some c =>
        obtain ⟨hcmem, hcold, _⟩ := resolvePass_commit_sound timeout e.1 s.pending c hc
        rw [List.chain'_append]
        refine ⟨h1, by simp, ?_⟩
        intro x hx y hy
        simp only [Option.toList_some, List.head?_cons, Option.mem_def,
          Option.some.injEq] at hy
        subst hy
        exact h2 x (mem_of_getLast? hx) c hcmem
  · intro c hc p hp
    have hc' : c ∈ s.trace ∨ (resolvePass timeout e.1 s.pending).2 = some c := by
      rcases List.mem_append.mp hc with h | h
      · exact Or.inl h
      · cases hr : (resolvePass timeout e.1 s.pending).2 with
        | none => rw [hr] at h; simp at h
        | some c' =>
            rw [hr] at h
            simp only [Option.toList_some, List.mem_singleton] at h
            subst h
            exact Or.inr rfl
    rcases hc' with hc' | hc'
    · rcases hpend p hp with rfl | ⟨hp', _⟩
      · exact lt_of_le_of_lt (h3 c hc') hm
      · exact h2 c hc' p hp'
    · obtain ⟨hcmem, hcold, _⟩ := resolvePass_commit_sound timeout e.1 s.pending c hc'
      rcases hpend p hp with rfl | ⟨_, hpyoung⟩
      · have : c.1 ≤ e.1 - timeout := by linarith
        exact lt_of_le_of_lt this (by linarith)
      · linarith
  · intro c hc
    rcases List.mem_append.mp hc with h | h
    · exact le_trans (h3 c h) (le_of_lt hm)
    · cases hr : (resolvePass timeout e.1 s.pending).2 with
      | none => rw [hr] at h; simp at h
      | some c' =>
          rw [hr] at h
          simp only [Option.toList_some, List.mem_singleton] at h
          subst h
          obtain ⟨hcmem, _, _⟩ := resolvePass_commit_sound timeout e.1 s.pending c hr
          exact le_trans (h4 c hcmem) (le_of_lt hm)
  · intro p hp
    rcases hpend p hp with rfl | ⟨hp', _⟩
    · exact le_refl _
    · exact le_trans (h4 p hp') (le_of_lt hm)

/-- Running a strictly-increasing event sequence preserves the invariant. -/
theorem runTent_inv (timeout : ℚ) (hT : 0 < timeout) :
    ∀ (events : List (ℚ × Rec)) (s : TState) (m : ℚ), TInv s m →
    List.Chain' (fun a b => a.1 < b.1) events →
    (∀ e, events.head? = some e → m < e.1) →
    ∃ m', TInv (events.foldl (tentStep timeout) s) m' := by
  intro events
  induction events with
  | nil => intro s m hinv _ _; exact ⟨m, hinv⟩
  | cons e evs ih =>
      intro s m hinv hchain hhead
      have hm : m < e.1 := hhead e rfl
      have hstep := tentStep_inv timeout hT s m e hinv hm
      rcases List.chain'_cons'.mp hchain with ⟨hrel, hchain'⟩
      refine ih (tentStep timeout s e) e.1 hstep hchain' ?_
      intro e' he'
      exact hrel e' he'

/-- A bare resolve keeps the trace strictly increasing. -/
theorem resolveStep_chain (timeout now : ℚ) (s : TState) (m : ℚ) (hinv : TInv s m) :
    List.Chain' (fun a b => a.1 < b.1) (resolveStep timeout now s).trace := by
  obtain ⟨h1, h2, _, _⟩ := hinv
  show List.Chain' _ (s.trace ++ ((resolvePass timeout now s.pending).2).toList)
  cases hc : (resolvePass timeout now s.pending).2 with
  | none => simpa using h1
  | some c =>
      obtain ⟨hcmem, _, _⟩ := resolvePass_commit_sound timeout now s.pending c hc
      rw [List.chain'_append]
      refine ⟨h1, by simp, ?_⟩
      intro x hx y hy
      simp only [Option.toList_some, List.head?_cons, Option.mem_def,
        Option.some.injEq] at hy
      subst hy
      exact h2 x (mem_of_getLast? hx) c hcmem

/-- Events that all lie within `timeout` of each other never commit during
the run: the whole queue survives, with distinct timestamps. -/
theorem runTent_burst (timeout : ℚ) (all : List (ℚ × Rec))
    (hpair : ∀ e ∈ all, ∀ e' ∈ all, e.1 - e'.1 < timeout)
    (hinc : List.Pairwise (fun a b => a.1 < b.1) all) :
    ∀ (evs pre : List (ℚ × Rec)) (s : TState), all = pre ++ evs →
    s.trace = [] →
    (∀ p, p ∈ s.pending ↔ p ∈ pre) →
    ((s.pending.map Prod.fst).Nodup) →
    (evs.foldl (tentStep timeout) s).trace = []
    ∧ (∀ p, p ∈ (evs.foldl (tentStep timeout) s).pending ↔ p ∈ all)
    ∧ (((evs.foldl (tentStep timeout) s).pending.map Prod.fst).Nodup) := by
  intro evs
  induction evs with
  | nil =>
      intro pre s hall htr hmem hnd
      subst hall
      simp only [List.foldl_nil, List.append_nil]
      exact ⟨htr, hmem, hnd⟩
  | cons e rest ih =>
      intro pre s hall htr hmem hnd
      have heall : e ∈ all := by
        rw [hall]; exact List.mem_append_right _ (List.mem_cons_self _ _)
      have hpre_lt : ∀ p ∈ pre, p.1 < e.1 := by
        intro p hp
        have hpw : List.Pairwise (fun a b => a.1 < b.1) (pre ++ e :: rest) := hall ▸ hinc
        exact (List.pairwise_append.mp hpw).2.2 p hp e (List.mem_cons_self _ _)
      have hyoung : ∀ p ∈ s.pending, e.1 - p.1 < timeout := by
        intro p hp
        have hpall : p ∈ all := by
          rw [hall]; exact List.mem_append_left _ ((hmem p).mp hp)
        exact hpair e heall p hpall
      have hnone : (resolvePass timeout e.1 s.pending).2 = none :=
        resolvePass_none _ _ _ hyoung
      have hkeptmem : ∀ p, p ∈ (resolvePass timeout e.1 s.pending).1 ↔ p ∈ s.pending := by
        intro p
        rw [resolvePass_kept_mem]
        exact ⟨fun h => h.1, fun h => ⟨h, hyoung p h⟩⟩
      have hfresh : e.1 ∉ ((resolvePass timeout e.1 s.pending).1).map Prod.fst := by
        intro hmem'
        obtain ⟨p, hp, hpe⟩ := List.mem_map.mp hmem'
        have hlt := hpre_lt p ((hmem p).mp ((hkeptmem p).mp hp))
        rw [hpe] at hlt
        exact lt_irrefl _ hlt
      have haset : aset (resolvePass timeout e.1 s.pending).1 e.1 e.2
          = (resolvePass timeout e.1 s.pending).1 ++ [e] :=
        aset_of_not_mem_keys _ _ _ hfresh
      have hstep_tr : (tentStep timeout s e).trace = [] := by
        simp [tentStep, hnone, htr]
      have hstep_mem : ∀ p, p ∈ (tentStep timeout s e).pending ↔ p ∈ pre ++ [e] := by
        intro p
        show p ∈ aset (resolvePass timeout e.1 s.pending).1 e.1 e.2 ↔ _
        rw [haset]
        simp only [List.mem_append, List.mem_singleton, hkeptmem p, hmem p]
      have hstep_nd : (((tentStep timeout s e).pending).map Prod.fst).Nodup := by
        show ((aset (resolvePass timeout e.1 s.pending).1 e.1 e.2).map Prod.fst).Nodup
        rw [haset, List.map_append]
        refine List.Nodup.append (resolvePass_kept_nodup _ _ _ hnd) (by simp) ?_
        intro a ha hb
        simp only [List.map_cons, List.map_nil, List.mem_singleton] at hb
        subst hb
        exact hfresh ha
      have hall' : all = (pre ++ [e]) ++ rest := by rw [hall]; simp
      exact ih (pre ++ [e]) (tentStep timeout s e) hall' hstep_tr hstep_mem hstep_nd

/-! ## Claims -/

/-- C1: For every resolution pass over a pending queue (the scan shared by
the per-window `process_pending` and the global `process_global_pending`,
each given a `now`): exactly the single most-recent entry whose age
(`now` minus its timestamp) is at least `exit_timeout` is committed (the
scan's `Option` result — structurally at most one commit per pass per
queue); every entry younger than `exit_timeout` is kept unchanged; every
entry older than the committed one is discarded without being committed. -/
theorem c1_resolution_pass (timeout now : ℚ) (q : List (ℚ × Rec))
    (hnd : (q.map Prod.fst).Nodup) :
    (∀ p : ℚ × Rec, p ∈ (resolvePass timeout now q).1 ↔ p ∈ q ∧ now - p.1 < timeout)
    ∧ (∀ p : ℚ × Rec, (resolvePass timeout now q).2 = some p ↔
        p ∈ q ∧ timeout ≤ now - p.1 ∧ ∀ p' ∈ q, timeout ≤ now - p'.1 → p'.1 ≤ p.1)
    ∧ (∀ (uuid : String) (w : WinState) (files : List (String × Rec)),
        ((process_pending timeout now uuid w files).1).pending
          = (resolvePass timeout now w.pending).1)
    ∧ (∀ g : GState, (process_global_pending timeout now g).1.globalPending
        = (g.globalPending.map (fun wq => (wq.1, (resolvePass timeout now wq.2).1))).filter
            (fun wq => !wq.2.isEmpty)) := by
  refine ⟨fun p => resolvePass_kept_mem timeout now q p,
    fun p => ⟨resolvePass_commit_sound timeout now q p,
      fun ⟨h1, h2, h3⟩ => resolvePass_commit_complete timeout now q hnd p h1 h2 h3⟩,
    fun uuid w files => rfl, ?_⟩
  intro g
  show ((g.globalPending.foldl (pgp_step timeout now) ([], g.files, false)).1).filter
      (fun wq => !wq.2.isEmpty) = _
  rw [pgp_fold_queues timeout now g.globalPending [] g.files false, List.nil_append]

/-- C1 witness: a queue with entries at timestamps 9 and 5, resolved at
`now = 10` with `exit_timeout = 1`, commits exactly the entry at 9. -/
theorem c1_witness :
    (([((9:ℚ), ([]:Rec)), ((5:ℚ), [["a"]])].map Prod.fst).Nodup)
    ∧ (resolvePass 1 10 [((9:ℚ), ([]:Rec)), ((5:ℚ), [["a"]])]).2 = some (9, []) := by
  have hnd : (([((9:ℚ), ([]:Rec)), ((5:ℚ), [["a"]])].map Prod.fst).Nodup) := by norm_num
  refine ⟨hnd, ?_⟩
  refine ((c1_resolution_pass 1 10 _ hnd).2.1 (9, [])).mpr ⟨by norm_num, by norm_num, ?_⟩
  rintro p' hp' h
  simp only [List.mem_cons, List.mem_singleton] at hp'
  rcases hp' with rfl | rfl | h'
  · norm_num
  · norm_num
  · cases h'

/-- C2: for one window and any sequence of tentative record events with
strictly increasing timestamps (each event resolving first with its own
timestamp as `now`, then inserting its entry — `on_tab_change_event`),
followed by a final resolution at any `now`: (a) the committed states
appear in strictly increasing timestamp order — no resolution commits an
entry older than one already committed; and (b) when all events lie within
`exit_timeout` of each other, no commit happens during the events, and the
final resolution (at a `now` at least `exit_timeout` past the last event)
commits exactly the last event's record — the earlier records are
superseded and never committed. -/
theorem c2_commit_order (timeout : ℚ) (hT : 0 < timeout) (events : List (ℚ × Rec))
    (hinc : List.Chain' (fun a b => a.1 < b.1) events) (now : ℚ) :
    List.Chain' (fun a b => a.1 < b.1)
      ((resolveStep timeout now (runTent timeout events)).trace)
    ∧ ((∀ e ∈ events, ∀ e' ∈ events, e.1 - e'.1 < timeout) →
        ∀ lastE, events.getLast? = some lastE → timeout ≤ now - lastE.1 →
        (runTent timeout events).trace = []
        ∧ (resolveStep timeout now (runTent timeout events)).trace = [lastE]) := by
  constructor
  · have hinit : TInv ⟨[], []⟩ ((match events.head? with
        | some e => e.1 - 1
        | none => 0) : ℚ) := by
      refine ⟨List.chain'_nil, ?_, ?_, ?_⟩ <;> intro c hc <;> simp at hc
    have hhead : ∀ e, events.head? = some e →
        ((match events.head? with
          | some e => e.1 - 1
          | none => 0) : ℚ) < e.1 := by
      intro e he
      rw [he]
      show e.1 - 1 < e.1
      linarith
    obtain ⟨m', hinv'⟩ := runTent_inv timeout hT events ⟨[], []⟩ _ hinit hinc hhead
    exact resolveStep_chain timeout now _ m' hinv'
  · intro hpair lastE hlast hold
    haveI : IsTrans (ℚ × Rec) (fun a b => a.1 < b.1) :=
      ⟨fun _ _ _ h1 h2 => lt_trans h1 h2⟩
    have hpw : List.Pairwise (fun a b => a.1 < b.1) events :=
      List.chain'_iff_pairwise.mp hinc
    obtain ⟨htr, hmem, hnd⟩ := runTent_burst timeout events hpair hpw events [] ⟨[], []⟩
      (by simp) rfl (by simp) (by simp)
    refine ⟨htr, ?_⟩
    have hlpend : lastE ∈ (runTent timeout events).pending :=
      (hmem lastE).mpr (mem_of_getLast? hlast)
    have hmax : ∀ p' ∈ (runTent timeout events).pending,
        timeout ≤ now - p'.1 → p'.1 ≤ lastE.1 := by
      intro p' hp' _
      exact chain_le_getLast events lastE hinc hlast p' ((hmem p').mp hp')
    have hcommit := resolvePass_commit_complete timeout now
      (runTent timeout events).pending hnd lastE hlpend hold hmax
    show (runTent timeout events).trace
        ++ (resolvePass timeout now (runTent timeout events).pending).2.toList = [lastE]
    rw [hcommit, show (runTent timeout events).trace = [] from htr]
    rfl

/-- C2 witness: two events at 0 and 1/2 (within the timeout 1 of each
other), resolved finally at `now = 2`: nothing is committed during the
events and the final resolution commits exactly the second record. -/
theorem c2_witness :
    ((0:ℚ) < 1)
    ∧ (runTent 1 [((0:ℚ), [["a"]]), ((1/2:ℚ), [["b"]])]).trace = []
    ∧ (resolveStep 1 2 (runTent 1 [((0:ℚ), [["a"]]), ((1/2:ℚ), [["b"]])])).trace
        = [((1/2:ℚ), [["b"]])] := by
  have h := c2_commit_order 1 (by norm_num) [((0:ℚ), [["a"]]), ((1/2:ℚ), [["b"]])]
    (List.chain'_cons.mpr ⟨by norm_num, List.chain'_singleton _⟩) 2
  have hb := h.2 ?_ ((1/2:ℚ), [["b"]]) rfl (by norm_num)
  · exact ⟨by norm_num, hb.1, hb.2⟩
  · intro e he e' he'
    simp only [List.mem_cons, List.mem_singleton, List.not_mem_nil, or_false] at he he'
    rcases he with rfl | rfl <;> rcases he' with rfl | rfl <;> norm_num

/-- C3 (code bug): for the valid-JSON, non-dict payload `[["a"]]`, the
`except` handler of `on_window_show` does not reset `saved_state` (the log
message says the state is discarded, but the assignment
`saved_state = json.loads(payload)` already happened), so the list value
survives and the subsequent `saved_state.keys()` raises an uncaught
`AttributeError` instead of yielding an empty map. -/
theorem c3_load_keeps_undecoded_payload :
    load_saved_state "[[\"a\"]]" (some (.jarr [.jarr [.jstr "a"]]))
      = .jarr [.jarr [.jstr "a"]]
    ∧ pyKeys (load_saved_state "[[\"a\"]]" (some (.jarr [.jarr [.jstr "a"]]))) = none := by
  constructor <;> rfl

/-- C4 counterexample: with persisted map `{W1: [["a"]], W2: []}` and an
empty committed map, the current window claims `W1` and then spawns an
additional window even though no unclaimed non-empty record remains (`W2`
is empty). -/
theorem c4_counterexample :
    (on_window_show_model true true [("W1", [["a"]]), ("W2", [])] []
        (fun _ => [["a"]])).spawned = true
    ∧ ∀ p ∈ [("W1", [["a"]]), ("W2", ([] : Rec))],
        p.2 = [] ∨ (alookup (on_window_show_model true true [("W1", [["a"]]), ("W2", [])] []
            (fun _ => [["a"]])).files p.1).isSome := by
  constructor
  · rfl
  · intro p hp
    rcases List.mem_cons.mp hp with rfl | hp
    · right; rfl
    · rcases List.mem_singleton.mp hp with rfl
      left; rfl

/-- C4 (amended): after the current window claims the first unclaimed
non-empty record, an additional window is spawned iff at least one record —
of any kind: already-claimed and empty records count too — follows the
claimed one in the persisted map's order (`uuids_left` non-empty);
whenever an unclaimed non-empty record exists, the window does claim one,
so no window ends with an empty claim while unclaimed non-empty records
exist. -/
theorem c4_amended_spawn_on_any_remaining (saved committed : List (String × Rec))
    (observe : String → Rec) :
    ((on_window_show_model true true saved committed observe).spawned = true
      ↔ 2 ≤ (saved.dropWhile
          (fun p => (alookup committed p.1).isSome || p.2.isEmpty)).length)
    ∧ ((∃ p ∈ saved, p.2 ≠ [] ∧ alookup committed p.1 = none) →
        (on_window_show_model true true saved committed observe).claimed.isSome) := by
  have hloop := claim_loop_eq committed observe saved
  rcases hd : saved.dropWhile (fun p => (alookup committed p.1).isSome || p.2.isEmpty) with
    _ | ⟨q, suf⟩
  · rw [hd] at hloop
    constructor
    · rw [hd]
      simp [on_window_show_model, hloop]
    · rintro ⟨p, hp, hne, hnone⟩
      exfalso
      have hall := List.dropWhile_eq_nil_iff.mp hd
      have := hall p hp
      rw [hnone] at this
      simp only [Option.isSome_none, Bool.false_or, List.isEmpty_iff] at this
      exact hne this
  · rw [hd] at hloop
    constructor
    · rw [hd]
      cases suf <;> simp [on_window_show_model, hloop]
    · intro _
      simp [on_window_show_model, hloop]

/-- C4 amended witness: with two unclaimed non-empty records, the window
claims one and spawns a successor. -/
theorem c4_witness :
    (∃ p ∈ [("W1", [["a"]]), ("W2", [["b"]])],
        p.2 ≠ ([] : Rec) ∧ alookup ([] : List (String × Rec)) p.1 = none)
    ∧ (on_window_show_model true true [("W1", [["a"]]), ("W2", [["b"]])] []
        (fun _ => [["a"]])).claimed.isSome
    ∧ (on_window_show_model true true [("W1", [["a"]]), ("W2", [["b"]])] []
        (fun _ => [["a"]])).spawned = true := by
  have hex : ∃ p ∈ [("W1", [["a"]]), ("W2", [["b"]])],
      p.2 ≠ ([] : Rec) ∧ alookup ([] : List (String × Rec)) p.1 = none :=
    ⟨("W1", [["a"]]), by simp, by simp, rfl⟩
  have h := c4_amended_spawn_on_any_remaining [("W1", [["a"]]), ("W2", [["b"]])] []
    (fun _ => [["a"]])
  exact ⟨hex, h.2 hex, h.1.mpr (by decide)⟩

/-- C5 counterexample: a window whose second tab group holds only a
document with no backing location produces the record `[["a"], []]`, which
contains an empty tab group. -/
theorem c5_counterexample_empty_group :
    get_state [⟨0, some "a"⟩, ⟨1, none⟩] = [["a"], []]
    ∧ [] ∈ get_state [⟨0, some "a"⟩, ⟨1, none⟩] := by
  constructor
  · rfl
  · rw [show get_state [⟨0, some "a"⟩, ⟨1, none⟩] = [["a"], []] from rfl]
    simp

/-- C5 (amended): `get_state` omits documents with no backing location (the
flattened record is exactly the located documents' URIs, in display order),
but a tab group whose documents all lack a location remains in the record
as an empty group; in particular the record has no empty group whenever
every open document has a location. -/
theorem c5_amended_located_docs (docs : List Doc) :
    (get_state docs).flatten = docs.filterMap (fun d => d.location)
    ∧ ((∀ d ∈ docs, d.location.isSome) → ∀ g ∈ get_state docs, g ≠ []) := by
  constructor
  · simpa using get_state_fold_join docs [] none (fun h => absurd rfl h)
  · intro hloc
    exact get_state_fold_ne_nil docs [] none (by simp) hloc

/-- C5 witness (for the amended theorem's hypothesis): with a single located
document the record is `[["a"]]` — flattening matches the located URIs and
no group is empty. -/
theorem c5_witness :
    (∀ d ∈ [(⟨0, some "a"⟩ : Doc)], d.location.isSome)
    ∧ ∀ g ∈ get_state [(⟨0, some "a"⟩ : Doc)], g ≠ [] := by
  have h : ∀ d ∈ [(⟨0, some "a"⟩ : Doc)], d.location.isSome := by
    intro d hd
    rcases List.mem_singleton.mp hd with rfl
    rfl
  exact ⟨h, (c5_amended_located_docs [⟨0, some "a"⟩]).2 h⟩

/-- C6: outside the loading phase, whenever the tab-added handler takes the
immediate-record path (the tab has a backing location, or the post-load
grace period is over), it drops all pending entries and the outstanding
timer (`cancel_pending`), commits `get_state()` directly into the global
committed map, and persists — no delay, no surviving pending entry. -/
theorem c6_tab_add_immediate_record (uuid : String) (cur : Rec) (w : WinState)
    (files : List (String × Rec)) :
    (∀ justLoaded : Bool, on_tab_add_event false justLoaded true uuid cur w files
      = (⟨[], none⟩, aset files uuid cur, true, false))
    ∧ (∀ hasLoc : Bool, on_tab_add_event false false hasLoc uuid cur w files
      = (⟨[], none⟩, aset files uuid cur, true, false)) := by
  constructor
  · intro justLoaded
    cases justLoaded <;> rfl
  · intro hasLoc
    rfl

/-- C7 counterexample: with an entry `(10, [["r1"]])` already pending under
`"W"` in the global queue (young enough to survive the resolution pass at
`now = 10`), handing off the leftover queue `{5: []}` for `"W"` replaces
the global queue under `"W"` — the pre-existing entry is lost, not
preserved as the claim states. -/
theorem c7_counterexample_existing_entry_lost :
    alookup (dump_final_states 1 10 "W" [((5:ℚ), ([]:Rec))]
        ⟨[], [("W", [((10:ℚ), [["r1"]])])], none⟩).1.globalPending "W"
      = some [((5:ℚ), ([]:Rec))]
    ∧ ((10:ℚ), [["r1"]]) ∉ [((5:ℚ), ([]:Rec))] := by
  constructor
  · norm_num [dump_final_states, process_global_pending, pgp_step, schedule_global_pending,
      resolvePass, scanPending, sortDesc, insertByStamp, aset, aerase, alookup,
      List.filter]
  · norm_num

/-- C7 (amended): `dump_final_states` first runs the global resolution pass
(on the state as it was, not on the merged queue), then REPLACES the global
queue under the window's id with the window's leftover queue (any entries
previously pending under that id are discarded), leaves every other id's
resolved queue and the committed map as the resolution pass left them, and
reschedules the global timer for `exit_timeout` plus the 0.1 slack. -/
theorem c7_amended_defer_delete_overwrites (timeout now : ℚ) (winId : String)
    (pq : List (ℚ × Rec)) (g : GState) :
    alookup (dump_final_states timeout now winId pq g).1.globalPending winId = some pq
    ∧ (∀ id, id ≠ winId →
        alookup (dump_final_states timeout now winId pq g).1.globalPending id
          = alookup (process_global_pending timeout now g).1.globalPending id)
    ∧ (dump_final_states timeout now winId pq g).1.files
        = (process_global_pending timeout now g).1.files
    ∧ (dump_final_states timeout now winId pq g).1.globalTimer = some (timeout + 1/10)
    ∧ (dump_final_states timeout now winId pq g).2
        = (process_global_pending timeout now g).2 := by
  exact ⟨alookup_aset_self _ _ _, fun id hid => alookup_aset_ne _ _ _ _ hid, rfl, rfl, rfl⟩

/-- C7 amended witness: concrete instance of the amended theorem — the
handed-off queue is installed verbatim under the id, another id's queue is
what the resolution pass left, and the timer is `exit_timeout + 0.1`. -/
theorem c7_witness :
    ("V" ≠ "W")
    ∧ alookup (dump_final_states 1 20 "W" [((5:ℚ), ([]:Rec))]
        ⟨[], [("V", [((19:ℚ), [["v"]])])], none⟩).1.globalPending "V"
      = alookup (process_global_pending 1 20
        ⟨[], [("V", [((19:ℚ), [["v"]])])], none⟩).1.globalPending "V"
    ∧ alookup (dump_final_states 1 20 "W" [((5:ℚ), ([]:Rec))]
        ⟨[], [("V", [((19:ℚ), [["v"]])])], none⟩).1.globalPending "W"
      = some [((5:ℚ), ([]:Rec))] := by
  have h := c7_amended_defer_delete_overwrites 1 20 "W" [((5:ℚ), ([]:Rec))]
    ⟨[], [("V", [((19:ℚ), [["v"]])])], none⟩
  exact ⟨by decide, h.2.1 "V" (by decide), h.1⟩

/-- C8 counterexample: a claim run of `on_window_show` changes the committed
map (from empty to `{W: [["a"]]}`) but performs no persist — contradicting
"every mutation that changes the map is immediately followed by a full
persist ... in particular ... the write the claim procedure performs". -/
theorem c8_counterexample_claim_write_not_persisted :
    (on_window_show_model true true [("W", [["a"]])] [] (fun _ => [["a"]])).files
      = [("W", [["a"]])]
    ∧ (on_window_show_model true true [("W", [["a"]])] [] (fun _ => [["a"]])).files ≠ []
    ∧ (on_window_show_model true true [("W", [["a"]])] [] (fun _ => [["a"]])).saved
      = false := by
  exact ⟨rfl, fun h => List.cons_ne_nil _ _ h, rfl⟩

/-- C8 (amended): the committed map is mutated only by immediate commits
(`on_tab_add_event`), pending-queue resolution (`process_pending`,
`process_global_pending`) and the load-time claim; the first three persist
immediately whenever the map changed, but the load-time claim write is NOT
followed by a persist (it is only persisted by the next `save_state` from a
later commit or the shutdown path). -/
theorem c8_amended_persist_after_mutation (timeout now : ℚ) (uuid : String)
    (w : WinState) (files : List (String × Rec)) (g : GState) :
    ((process_pending timeout now uuid w files).2.1 ≠ files →
      (process_pending timeout now uuid w files).2.2 = true)
    ∧ ((process_global_pending timeout now g).1.files ≠ g.files →
      (process_global_pending timeout now g).2 = true)
    ∧ (∀ (loading justLoaded hasLoc : Bool) (cur : Rec),
        (on_tab_add_event loading justLoaded hasLoc uuid cur w files).2.1 ≠ files →
        (on_tab_add_event loading justLoaded hasLoc uuid cur w files).2.2.1 = true)
    ∧ (∀ (loading settingsOk : Bool) (saved committed : List (String × Rec))
        (observe : String → Rec),
        (on_window_show_model loading settingsOk saved committed observe).saved = false) := by
  refine ⟨?_, ?_, ?_, ?_⟩
  · intro hne
    rcases hr : (resolvePass timeout now w.pending).2 with _ | c
    · exfalso
      apply hne
      simp [process_pending, hr]
    · simp [process_pending, hr]
  · intro hne
    rcases hb : (g.globalPending.foldl (pgp_step timeout now) ([], g.files, false)).2.2 with
      _ | _
    · exfalso
      exact hne (pgp_fold_unchanged timeout now g.globalPending [] g.files false hb).1
    · exact hb
  · intro loading justLoaded hasLoc cur
    cases loading with
    | true => intro hne; exact absurd rfl hne
    | false =>
        cases justLoaded <;> cases hasLoc <;> intro hne
        · rfl
        · rfl
        · exact absurd rfl hne
        · rfl
  · intro loading settingsOk saved committed observe
    cases loading with
    | false => rfl
    | true =>
        cases settingsOk with
        | false => rfl
        | true => rfl

/-- C8 amended witness: a resolution pass that changes the map does persist
(concrete instance of the first conjunct of the amended theorem). -/
theorem c8_witness :
    ((process_pending 1 10 "W" ⟨[((5:ℚ), [["a"]])], none⟩ []).2.1 ≠ [])
    ∧ (process_pending 1 10 "W" ⟨[((5:ℚ), [["a"]])], none⟩ []).2.2 = true := by
  have hne : (process_pending 1 10 "W" ⟨[((5:ℚ), [["a"]])], none⟩ []).2.1 ≠ [] := by
    norm_num [process_pending, resolvePass, scanPending, sortDesc, insertByStamp, aset]
  exact ⟨hne, (c8_amended_persist_after_mutation 1 10 "W" ⟨[((5:ℚ), [["a"]])], none⟩ []
    ⟨[], [], none⟩).1 hne⟩

/-- C9: for every session map a previous save can produce (a Python dict —
so with distinct keys), deserializing the serialized payload recovers the
map exactly, hence serialize∘deserialize∘serialize is byte-identical to
serialize: `save(load())` on an unchanged map is idempotent. -/
theorem c9_serialize_roundtrip (m : List (String × Rec))
    (hnd : (m.map Prod.fst).Nodup) :
    js_loads (js_dumps m) = some m
    ∧ Option.map js_dumps (js_loads (js_dumps m)) = some (js_dumps m) := by
  have hload : js_loads (js_dumps m) = some m := by
    have hF1 : m.length ≤ (dumpsObj m).length + 1 := by
      have := obj_len_le m
      omega
    have hF2 : ∀ p ∈ m, p.2.length ≤ (dumpsObj m).length + 1 := by
      intro p hp
      have := rec_len_le p.2
      have := rec_le_member p
      have := member_le_obj m p hp
      omega
    have hF3 : ∀ p ∈ m, ∀ g ∈ p.2, g.length ≤ (dumpsObj m).length + 1 := by
      intro p hp g hg
      have := group_len_le g
      have := group_le_rec p.2 g hg
      have := rec_le_member p
      have := member_le_obj m p hp
      omega
    show ((parseObjTop ((js_dumps m).length + 1) (js_dumps m).data).bind fun mr =>
      if mr.2 = [] then some mr.1 else none) = some m
    have hdata : (js_dumps m).data = dumpsObj m := rfl
    have hlen : (js_dumps m).length = (dumpsObj m).length := rfl
    rw [hdata, hlen]
    have hp := dumpsObj_parse m ((dumpsObj m).length + 1) hF1 hF2 hF3 []
    rw [List.append_nil] at hp
    rw [hp]
    rfl
  refine ⟨hload, ?_⟩
  rw [hload]
  rfl

/-- C9 witness: a concrete one-window map round-trips; its keys are
distinct. -/
theorem c9_witness :
    ((([("W1", [["a"]])] : List (String × Rec)).map Prod.fst).Nodup)
    ∧ js_loads (js_dumps ([("W1", [["a"]])] : List (String × Rec)))
        = some ([("W1", [["a"]])] : List (String × Rec)) :=
  ⟨by decide, (c9_serialize_roundtrip [("W1", [["a"]])] (by decide)).1⟩

/-- C10 (implicit frame property): outside the loading phase but within the
post-load grace period (`just_loaded()` true), a tab-added event whose tab
has no backing location returns without committing, without persisting and
without touching the pending queue or timer — only the removal of the
default empty tab may get scheduled (when the committed map is non-empty). -/
theorem c10_grace_period_blank_tab_frame (uuid : String) (cur : Rec) (w : WinState)
    (files : List (String × Rec)) :
    on_tab_add_event false true false uuid cur w files
      = (w, files, false, !files.isEmpty) := by
  rfl

end SessionKeeper
